import Mathlib

/-!
Verification of the pofe cross-layer context store against its design
specification.

The development shallowly embeds the Python sources:

* `src/src/context/context_manager.py` (class `ContextManager`): the
  SQLite-backed document store, the derived `uid_index`, and the
  `related_to` traversal (`gather_related` / `_traverse`).
* `src/src/uid.py` (`make_uid`): deterministic hash-based identifiers.
* The `related_to` merge sites in
  `src/src/services/requirement_management_service.py`,
  `src/src/services/architecture_design_service.py` and
  `src/src/services/project_initializer.py`.

JSON-compatible values are modelled by the inductive `JVal`; Python dicts
are association lists preserving insertion order (CPython dicts are
insertion ordered).  `json.dumps` followed by `json.loads` is modelled as
the identity on JSON-compatible values, so the SQLite text column is
modelled by storing the value itself.  Documents whose layer-specific
fields have the wrong runtime type (for example a `requirements` field
that is not a list) would raise a `TypeError` in Python; such documents
are outside the modelled domain and the embedding treats the offending
field as absent.  Item `uid` fields are modelled as strings, as the data
model prescribes; the Python truthiness test `if uid:` becomes a
non-empty-string test.
-/

namespace Pofe

/-- JSON-compatible values: the payload type of every stored document. -/
inductive JVal where
  | null
  | bool (b : Bool)
  | num (n : Int)
  | str (s : String)
  | arr (xs : List JVal)
  | obj (kvs : List (String × JVal))

/-- A top-level document is a Python dict: an insertion-ordered
association list from string keys to JSON values. -/
abbrev Doc := List (String × JVal)

/-- First value bound to a key in an association list, as Python
`d.get(k)` on a dict with unique keys. -/
def docGet (m : Doc) (k : String) : Option JVal :=
  match m with
  | [] => none
  | (k', v) :: rest => if k' = k then some v else docGet rest k

/-- Python dict assignment `m[k] = v`: overwrite the value in place when
the key is present, otherwise append the new binding at the end. -/
def docSet (m : Doc) (k : String) (v : JVal) : Doc :=
  match m with
  | [] => [(k, v)]
  | (k', v') :: rest =>
      if k' = k then (k', v) :: rest else (k', v') :: docSet rest k v

/-- Python `e.update(d)`: fold dict assignment of each binding of `d`
into `e`. -/
def dictUpdate (e d : Doc) : Doc :=
  d.foldl (fun acc kv => docSet acc kv.1 kv.2) e

/-- Field lookup on a JSON object; `none` on any other value. -/
def objGet (v : JVal) (k : String) : Option JVal :=
  match v with
  | .obj kvs => docGet kvs k
  | _ => none

/-- Field assignment on a JSON object; other values are left unchanged. -/
def objSet (v : JVal) (k : String) (x : JVal) : JVal :=
  match v with
  | .obj kvs => .obj (docSet kvs k x)
  | _ => v

/-- The array elements of a field, defaulting to the empty list, as
Python `v.get(k, [])` used as an iteration source. -/
def objItems (v : JVal) (k : String) : List JVal :=
  match objGet v k with
  | some (.arr xs) => xs
  | _ => []

/-- The string elements of an array-valued field: the shape of every
`related_to` list in the data model. -/
def objStrings (v : JVal) (k : String) : List String :=
  (objItems v k).filterMap fun x =>
    match x with
    | .str s => some s
    | _ => none

/-- The `uid` field of an item when it is a truthy (non-empty) string,
as the guard `if uid:` in `ContextManager._extract_uid_items`. -/
def itemUid (v : JVal) : Option String :=
  match objGet v "uid" with
  | some (.str u) => if u = "" then none else some u
  | _ => none

/-- Whether the `status` field of an item equals the given string. -/
def statusIs (v : JVal) (st : String) : Bool :=
  match objGet v "status" with
  | some (.str s) => s = st
  | _ => false

/-! ## The context store

`ContextManager` state: the `contexts` table (one JSON document per
`context_id`) and the derived `uid_index` table (one row per addressable
item: uid, owning context, and a copy of the item document). -/

/-- One `uid_index` row: `(uid, context_id, item)`. -/
abbrev IdxRow := String × String × JVal

/-- The state of a `ContextManager`: both SQLite tables. -/
structure Store where
  contexts : List (String × Doc)
  uidIndex : List IdxRow

/-- The store of a freshly created database: both tables empty. -/
def emptyStore : Store := ⟨[], []⟩

/-- Row lookup in the `contexts` table. -/
def ctxGet (ctxs : List (String × Doc)) (cid : String) : Option Doc :=
  match ctxs with
  | [] => none
  | (c, d) :: rest => if c = cid then some d else ctxGet rest cid

/-- `ContextManager.context_exists`: whether the keyed `SELECT` on the
`contexts` table returns a row. -/
def context_exists (s : Store) (cid : String) : Bool :=
  (ctxGet s.contexts cid).isSome

/-- SQLite `INSERT OR REPLACE` on the `contexts` table (keyed by
`context_id`). -/
def ctxPut (ctxs : List (String × Doc)) (cid : String) (d : Doc) :
    List (String × Doc) :=
  match ctxs with
  | [] => [(cid, d)]
  | (c, d') :: rest =>
      if c = cid then (c, d) :: rest else (c, d') :: ctxPut rest cid d

/-- `ContextManager.read_context`; `none` models `FileNotFoundError`. -/
def read_context (s : Store) (cid : String) : Option Doc :=
  ctxGet s.contexts cid

/-- `ContextManager._extract_uid_items`: walk one context document with
its layer-specific shape and collect every `(uid, item)` pair whose item
carries a truthy `uid`. -/
def extractUidItems (cid : String) (data : Doc) : List (String × JVal) :=
  if cid = "requirements" then
    (match docGet data "requirements" with
     | some (.arr rs) => rs
     | _ => []).filterMap fun r => (itemUid r).map fun u => (u, r)
  else if cid = "architecture" then
    let arch := match docGet data "architecture" with
      | some a => a
      | none => .obj []
    (objItems arch "components").filterMap fun c =>
      (itemUid c).map fun u => (u, c)
  else if cid = "implementation" then
    (match docGet data "files" with
     | some (.arr fs) => fs
     | _ => []).flatMap fun f =>
      ((objItems f "classes").flatMap fun cls =>
        ((itemUid cls).map fun u => (u, cls)).toList ++
          ((objItems cls "methods").filterMap fun mtd =>
            (itemUid mtd).map fun u => (u, mtd))) ++
        ((objItems f "functions").filterMap fun fn =>
          (itemUid fn).map fun u => (u, fn))
  else []

/-- SQLite `DELETE FROM uid_index WHERE context_id = ?`. -/
def idxDelete (idx : List IdxRow) (cid : String) : List IdxRow :=
  idx.filter fun r => r.2.1 ≠ cid

/-- SQLite `INSERT OR REPLACE INTO uid_index` (keyed by `uid`). -/
def idxPut (idx : List IdxRow) (u cid : String) (it : JVal) : List IdxRow :=
  match idx with
  | [] => [(u, cid, it)]
  | (u', c', it') :: rest =>
      if u' = u then (u', cid, it) :: rest
      else (u', c', it') :: idxPut rest u cid it

/-- Row lookup in the `uid_index` table. -/
def idxGet (idx : List IdxRow) (u : String) : Option (String × JVal) :=
  match idx with
  | [] => none
  | (u', c, it) :: rest => if u' = u then some (c, it) else idxGet rest u

/-- `ContextManager._reindex_context`: replace all `uid_index` rows of
one context with the pairs extracted from its (new) document. -/
def reindexContext (s : Store) (cid : String) (data : Doc) : Store :=
  { s with
    uidIndex :=
      (extractUidItems cid data).foldl
        (fun acc p => idxPut acc p.1 cid p.2) (idxDelete s.uidIndex cid) }

/-- `ContextManager.create_context`.  `none` models `FileExistsError`;
on success the new store is returned. -/
def create_context (s : Store) (cid : String) (data : Doc) : Option Store :=
  if context_exists s cid then none
  else some (reindexContext
    { s with contexts := s.contexts ++ [(cid, data)] } cid data)

/-- `ContextManager.update_context`: with `merge` the top-level keys of
`data` are merged into the existing document; the row is then written
with `INSERT OR REPLACE` and the context reindexed.  Never fails; the
context is created when absent. -/
def update_context (s : Store) (cid : String) (data : Doc)
    (merge : Bool := true) : Store :=
  let data :=
    if merge ∧ context_exists s cid then
      match read_context s cid with
      | some existing => dictUpdate existing data
      | none => data
    else data
  reindexContext { s with contexts := ctxPut s.contexts cid data } cid data

/-- `ContextManager.remove_context`.  `none` models `FileNotFoundError`. -/
def remove_context (s : Store) (cid : String) : Option Store :=
  if context_exists s cid then
    some { contexts := s.contexts.filter fun c => c.1 ≠ cid,
           uidIndex := idxDelete s.uidIndex cid }
  else none

/-- `ContextManager.find_by_uid`: keyed lookup in `uid_index`, returning
the item document. -/
def find_by_uid (s : Store) (u : String) : Option JVal :=
  (idxGet s.uidIndex u).map Prod.snd

/-! ## Relationship traversal

`ContextManager._traverse` recursively follows `related_to` links,
decrementing the hop budget at each recursion and guarding revisits with
a `visited` set.  The traversal state is the pair of the `collected`
association list (a Python dict, insertion ordered) and the `visited`
list (a Python set, used only through membership). -/

/-- Traversal state: collected `(uid, item)` pairs and the visited set. -/
abbrev TravSt := List (String × JVal) × List String

/-- One level of the traversal: process the `related_to` references of
an item.  `rec` performs the recursion into a found item at the smaller
hop budget. -/
def goRefs (s : Store) (rec : JVal → TravSt → TravSt) :
    List String → TravSt → TravSt
  | [], st => st
  | ref :: rest, st =>
      if ref ∈ st.2 then goRefs s rec rest st
      else
        match find_by_uid s ref with
        | none => goRefs s rec rest (st.1, ref :: st.2)
        | some it =>
            goRefs s rec rest (rec it (st.1 ++ [(ref, it)], ref :: st.2))

/-- `ContextManager._traverse` with an explicit natural hop budget
(`depth <= 0` in Python returns immediately, so an integer depth acts
through its truncation to a natural number). -/
def traverse (s : Store) (depth : Nat) : JVal → TravSt → TravSt :=
  Nat.rec (motive := fun _ => JVal → TravSt → TravSt)
    (fun _ st => st)
    (fun _ ih item st => goRefs s ih (objStrings item "related_to") st)
    depth

/-- The bundle returned by `ContextManager.gather_related`. -/
structure GatherResult where
  root : Option JVal
  related : List (String × JVal)

/-- `ContextManager.gather_related`: resolve the seed, then follow
`related_to` links for `depth` hops, seeding the visited set with the
seed uid. -/
def gather_related (s : Store) (uid : String) (depth : Int) : GatherResult :=
  match find_by_uid s uid with
  | none => ⟨none, []⟩
  | some root =>
      ⟨some root, (traverse s depth.toNat root ([], [uid])).1⟩

/-! ## Operation sequences over the store

For the index-consistency invariant the three mutating entry points are
packaged as an operation type; an operation that raises
(`FileExistsError` / `FileNotFoundError`) leaves the store unchanged,
since in the source every check precedes every mutation. -/

/-- One call to a mutating entry point of `ContextManager`. -/
inductive Op where
  | create (cid : String) (data : Doc)
  | update (cid : String) (data : Doc) (merge : Bool)
  | remove (cid : String)

/-- Apply one operation; a raising call leaves the state unchanged. -/
def applyOp (s : Store) : Op → Store
  | .create cid data => (create_context s cid data).getD s
  | .update cid data merge => update_context s cid data merge
  | .remove cid => (remove_context s cid).getD s

/-- Apply a sequence of operations in order. -/
def applyOps (s : Store) (ops : List Op) : Store := ops.foldl applyOp s

/-- The index rows that walking one context document should produce. -/
def rowsOf (cid : String) (d : Doc) : List IdxRow :=
  (extractUidItems cid d).map fun p => (p.1, cid, p.2)

/-- The index rows produced by walking every stored layer document with
its layer-specific extraction shape. -/
def walkRows (ctxs : List (String × Doc)) : List IdxRow :=
  ctxs.flatMap fun c => rowsOf c.1 c.2

/-- All uids found by walking the stored documents are pairwise
distinct (the data model makes uids globally unique by construction). -/
def Good (s : Store) : Prop :=
  ((walkRows s.contexts).map (fun r => r.1)).Nodup

instance (s : Store) : Decidable (Good s) := by
  unfold Good; infer_instance

/-- The uid index mirrors the stored documents exactly: every walked
item is found at its uid, everything found is a walked item, and each
uid belongs to exactly one walked item. -/
def IndexConsistent (s : Store) : Prop :=
  (∀ r ∈ walkRows s.contexts, find_by_uid s r.1 = some r.2.2) ∧
  (∀ u it, find_by_uid s u = some it →
    ∃ cid, (u, cid, it) ∈ walkRows s.contexts) ∧
  ((walkRows s.contexts).map (fun r => r.1)).Nodup

/-- The internal invariant carried through operation sequences: the
`uid_index` rows are a permutation of the walked rows and the stored
context ids are distinct. -/
def StoreInv (s : Store) : Prop :=
  s.uidIndex.Perm (walkRows s.contexts) ∧ (s.contexts.map Prod.fst).Nodup

/-- Store states reachable from a fresh database by operations that
keep every reached state `Good` (extracted uids pairwise distinct). -/
inductive ReachableGood : Store → Prop
  | init : ReachableGood emptyStore
  | step (s : Store) (op : Op) : ReachableGood s → Good (applyOp s op) →
      ReachableGood (applyOp s op)

/-! ## Identity assignment (`src/src/uid.py`)

`make_uid` hashes the joined parts with SHA-256 and keeps the first
eight hex characters.  SHA-256 is embedded as a pure function on byte
lists, words being naturals reduced modulo `2 ^ 32`; it matches the
reference vectors of FIPS 180-4. -/

/-- The word modulus of SHA-256. -/
def M32 : Nat := 4294967296

/-- Right rotation of a 32-bit word. -/
def rotr (k n : Nat) : Nat := (n / 2 ^ k + n % 2 ^ k * 2 ^ (32 - k)) % M32

/-- Right shift of a 32-bit word. -/
def shr (k n : Nat) : Nat := n / 2 ^ k

/-- Bitwise complement of a 32-bit word. -/
def bnot32 (n : Nat) : Nat := Nat.xor n (M32 - 1)

/-- SHA-256 big Sigma-0. -/
def bigSigma0 (x : Nat) : Nat :=
  Nat.xor (rotr 2 x) (Nat.xor (rotr 13 x) (rotr 22 x))

/-- SHA-256 big Sigma-1. -/
def bigSigma1 (x : Nat) : Nat :=
  Nat.xor (rotr 6 x) (Nat.xor (rotr 11 x) (rotr 25 x))

/-- SHA-256 small sigma-0. -/
def smallSigma0 (x : Nat) : Nat :=
  Nat.xor (rotr 7 x) (Nat.xor (rotr 18 x) (shr 3 x))

/-- SHA-256 small sigma-1. -/
def smallSigma1 (x : Nat) : Nat :=
  Nat.xor (rotr 17 x) (Nat.xor (rotr 19 x) (shr 10 x))

/-- SHA-256 choice function. -/
def chFn (x y z : Nat) : Nat :=
  Nat.xor (Nat.land x y) (Nat.land (bnot32 x) z)

/-- SHA-256 majority function. -/
def majFn (x y z : Nat) : Nat :=
  Nat.xor (Nat.land x y) (Nat.xor (Nat.land x z) (Nat.land y z))

/-- The 64 SHA-256 round constants of FIPS 180-4, written in decimal. -/
def shaK : List Nat :=
  [1116352408, 1899447441, 3049323471, 3921009573, 961987163, 1508970993,
   2453635748, 2870763221, 3624381080, 310598401, 607225278, 1426881987,
   1925078388, 2162078206, 2614888103, 3248222580, 3835390401, 4022224774,
   264347078, 604807628, 770255983, 1249150122, 1555081692, 1996064986,
   2554220882, 2821834349, 2952996808, 3210313671, 3336571891, 3584528711,
   113926993, 338241895, 666307205, 773529912, 1294757372, 1396182291,
   1695183700, 1986661051, 2177026350, 2456956037, 2730485921, 2820302411,
   3259730800, 3345764771, 3516065817, 3600352804, 4094571909, 275423344,
   430227734, 506948616, 659060556, 883997877, 958139571, 1322822218,
   1537002063, 1747873779, 1955562222, 2024104815, 2227730452, 2361852424,
   2428436474, 2756734187, 3204031479, 3329325298]

/-- The eight-word working state of the SHA-256 compression function. -/
structure Hash8 where
  a : Nat
  b : Nat
  c : Nat
  d : Nat
  e : Nat
  f : Nat
  g : Nat
  h : Nat

/-- The SHA-256 initial hash value of FIPS 180-4, written in decimal. -/
def shaInit : Hash8 :=
  ⟨1779033703, 3144134277, 1013904242, 2773480762,
   1359893119, 2600822924, 528734635, 1541459225⟩

/-- One word of the extended message schedule. -/
def scheduleStep (w : List Nat) (i : Nat) : Nat :=
  (smallSigma1 (w.getD (i - 2) 0) + w.getD (i - 7) 0 +
    smallSigma0 (w.getD (i - 15) 0) + w.getD (i - 16) 0) % M32

/-- Extend sixteen message words to the 64-word schedule. -/
def schedule (w16 : List Nat) : List Nat :=
  (List.range 48).foldl (fun w i => w ++ [scheduleStep w (i + 16)]) w16

/-- One round of the SHA-256 compression function. -/
def round1 (st : Hash8) (kw : Nat × Nat) : Hash8 :=
  let t1 := (st.h + bigSigma1 st.e + chFn st.e st.f st.g + kw.1 + kw.2) % M32
  let t2 := (bigSigma0 st.a + majFn st.a st.b st.c) % M32
  ⟨(t1 + t2) % M32, st.a, st.b, st.c, (st.d + t1) % M32, st.e, st.f, st.g⟩

/-- Pointwise modular addition of hash states. -/
def addHash (x y : Hash8) : Hash8 :=
  ⟨(x.a + y.a) % M32, (x.b + y.b) % M32, (x.c + y.c) % M32, (x.d + y.d) % M32,
   (x.e + y.e) % M32, (x.f + y.f) % M32, (x.g + y.g) % M32, (x.h + y.h) % M32⟩

/-- Process one sixteen-word block. -/
def compress (st : Hash8) (w16 : List Nat) : Hash8 :=
  addHash st ((shaK.zip (schedule w16)).foldl round1 st)

/-- Big-endian assembly of four bytes into a word. -/
def word32Of (b0 b1 b2 b3 : Nat) : Nat := ((b0 * 256 + b1) * 256 + b2) * 256 + b3

/-- Group a byte list into big-endian 32-bit words. -/
def toWords : List Nat → List Nat
  | b0 :: b1 :: b2 :: b3 :: rest => word32Of b0 b1 b2 b3 :: toWords rest
  | _ => []

/-- Split a padded byte list into sixteen-word blocks. -/
def toBlocks (bytes : List Nat) : List (List Nat) :=
  if bytes.length = 0 then []
  else toWords (bytes.take 64) :: toBlocks (bytes.drop 64)
  termination_by bytes.length
  decreasing_by
    rename_i h
    rw [List.length_drop]
    omega

/-- The big-endian 64-bit message length trailer. -/
def lenBytes64 (n : Nat) : List Nat :=
  [n / 2 ^ 56 % 256, n / 2 ^ 48 % 256, n / 2 ^ 40 % 256, n / 2 ^ 32 % 256,
   n / 2 ^ 24 % 256, n / 2 ^ 16 % 256, n / 2 ^ 8 % 256, n % 256]

/-- SHA-256 message padding: one 0x80 byte, then zeros up to 56 mod 64,
then the 64-bit big-endian bit length.  The byte count of the 0x80 byte
plus the zeros is `((119 - len % 64) % 64) + 1`, which ranges over
1..64; since `len % 64 ≤ 63` the subtraction never truncates. -/
def pad (msg : List Nat) : List Nat :=
  let padLen := (119 - msg.length % 64) % 64 + 1
  msg ++ 0x80 :: List.replicate (padLen - 1) 0 ++ lenBytes64 (msg.length * 8)

/-- Big-endian bytes of a 32-bit word. -/
def word32Bytes (w : Nat) : List Nat :=
  [w / 2 ^ 24 % 256, w / 2 ^ 16 % 256, w / 2 ^ 8 % 256, w % 256]

/-- SHA-256 of a byte list: the 32 digest bytes. -/
def sha256 (msg : List Nat) : List Nat :=
  let fin := (toBlocks (pad msg)).foldl compress shaInit
  word32Bytes fin.a ++ word32Bytes fin.b ++ word32Bytes fin.c ++
    word32Bytes fin.d ++ word32Bytes fin.e ++ word32Bytes fin.f ++
    word32Bytes fin.g ++ word32Bytes fin.h

/-- UTF-8 encoding of one character, as Python `str.encode()`. -/
def utf8Bytes (c : Char) : List Nat :=
  let n := c.toNat
  if n < 0x80 then [n]
  else if n < 0x800 then [0xc0 + n / 64, 0x80 + n % 64]
  else if n < 0x10000 then
    [0xe0 + n / 4096, 0x80 + n / 64 % 64, 0x80 + n % 64]
  else
    [0xf0 + n / 262144, 0x80 + n / 4096 % 64, 0x80 + n / 64 % 64, 0x80 + n % 64]

/-- UTF-8 bytes of a string. -/
def strBytes (s : String) : List Nat := s.data.flatMap utf8Bytes

/-- The lowercase hexadecimal digit of a nibble: digits map to the
codepoints from 48 and the letters a to f to the codepoints from 97. -/
def hexChar (n : Nat) : Char :=
  if n < 10 then Char.ofNat (48 + n) else Char.ofNat (87 + n)

/-- The two lowercase hex characters of one byte. -/
def byteHexChars (b : Nat) : List Char :=
  [hexChar (b / 16 % 16), hexChar (b % 16)]

/-- The characters of `hashlib.sha256(key.encode()).hexdigest()`. -/
def sha256hexChars (s : String) : List Char :=
  (sha256 (strBytes s)).flatMap byteHexChars

/-- `make_uid` from `src/src/uid.py`: join the parts with a colon, hash,
and keep the prefix plus the first eight hex digest characters. -/
def make_uid (pre : String) (parts : List String) : String :=
  pre ++ "-" ++
    String.mk ((sha256hexChars (String.intercalate ":" parts)).take 8)

/-! ## The `related_to` merge sites

Three call sites union a new relationship list into an existing
`related_to`.  The two service sites build a Python `set` from the
existing entries, add the new ones and convert back with `list(...)`;
CPython iterates a set in an unspecified, hash-dependent order, so the
embedding fixes a representative order (`List.dedup`) and the theorems
below use these definitions only through membership and duplicate
freedom, which are order independent.  The initializer site instead
appends unseen entries to the existing list as it stands. -/

/-- The merge in `RequirementManagementService.update_requirement`:
`list(set(existing) | new)` up to the unspecified set order. -/
def update_requirement_related (existing new : List String) : List String :=
  (existing ++ new).dedup

/-- The merge in `ArchitectureDesignService.update_architecture`: the
same set-based union, written as an element loop in the source. -/
def update_architecture_related (existing new : List String) : List String :=
  (existing ++ new).dedup

/-- The merge in `ProjectInitializer._backfill_arch_related_to`: keep
the existing list as it stands and append each new entry not already
seen, the seen set starting from the existing entries. -/
def backfill_merge_related (existing extra : List String) : List String :=
  (extra.foldl
    (fun st uid => if uid ∈ st.2 then st else (st.1 ++ [uid], uid :: st.2))
    (existing, existing)).1

/-! ## Status queries

`main.review_items` calls `ContextManager.find_by_status` and
`ContextManager.update_item_status`, but the snapshot of
`context_manager.py` does not contain these methods; they are modelled
from sections 4.5 and 8 of the specification. -/

/-- Modelled from the spec: `find_by_status(status)` is missing from the
`ContextManager` source (only its caller `main.review_items` is in the
snapshot); section 4.5 defines it as a full scan of the entity index
returning every item whose `status` field equals the given value. -/
def find_by_status (s : Store) (st : String) : List JVal :=
  s.uidIndex.filterMap fun r =>
    if statusIs r.2.2 st then some r.2.2 else none

/-- Whether the `uid` field of an item equals the given string. -/
def uidIs (v : JVal) (u : String) : Bool :=
  match objGet v "uid" with
  | some (.str w) => w = u
  | _ => false

/-- Set the `status` field of an item when its `uid` field matches. -/
def setIfUid (u st : String) (it : JVal) : JVal :=
  if uidIs it u then objSet it "status" (.str st) else it

/-- Map a function over one field of a JSON object, leaving every other
field and every non-object value unchanged. -/
def mapField (v : JVal) (k : String) (f : JVal → JVal) : JVal :=
  match v with
  | .obj kvs => .obj (kvs.map fun kv => if kv.1 = k then (kv.1, f kv.2) else kv)
  | _ => v

/-- Map a function over the elements of a JSON array, leaving non-array
values unchanged. -/
def mapArr (g : JVal → JVal) (v : JVal) : JVal :=
  match v with
  | .arr xs => .arr (xs.map g)
  | _ => v

/-- Map a function over one field of a document. -/
def docMapField (d : Doc) (k : String) (f : JVal → JVal) : Doc :=
  d.map fun kv => if kv.1 = k then (kv.1, f kv.2) else kv

/-- Modelled from the spec: the point mutation inside
`update_item_status` ("mutate that one item's `status` field inside its
owning layer document"), walking the document with the same
layer-specific shape as `_extract_uid_items`. -/
def setItemStatus (cid : String) (doc : Doc) (u st : String) : Doc :=
  if cid = "requirements" then
    docMapField doc "requirements" (mapArr (setIfUid u st))
  else if cid = "architecture" then
    docMapField doc "architecture"
      (fun arch => mapField arch "components" (mapArr (setIfUid u st)))
  else if cid = "implementation" then
    docMapField doc "files" (mapArr fun f =>
      mapField
        (mapField f "classes" (mapArr fun cls =>
          mapField (setIfUid u st cls) "methods" (mapArr (setIfUid u st))))
        "functions" (mapArr (setIfUid u st)))
  else doc

/-- Modelled from the spec: `update_item_status(uid, new_status)` is
missing from the `ContextManager` source (only its caller
`main.review_items` is in the snapshot); section 4.5 requires it to
locate the owning layer via the index, mutate that one item inside the
layer document, write the document back (triggering reindex) and report
success. -/
def update_item_status (s : Store) (u newStatus : String) : Store × Bool :=
  match idxGet s.uidIndex u with
  | none => (s, false)
  | some (cid, _) =>
      match read_context s cid with
      | none => (s, false)
      | some doc =>
          (update_context s cid (setItemStatus cid doc u newStatus) false, true)

/-- Whether a character is a lowercase hexadecimal digit. -/
def isHexLower (c : Char) : Bool :=
  (48 ≤ c.toNat && c.toNat ≤ 57) || (97 ≤ c.toNat && c.toNat ≤ 102)

/-- State invariant of the traversal: every collected pair was found in
the index, collected keys are distinct, and every collected key has
been visited. -/
def TravInv (s : Store) (st : TravSt) : Prop :=
  (∀ p ∈ st.1, find_by_uid s p.1 = some p.2) ∧
  (st.1.map Prod.fst).Nodup ∧
  (∀ k ∈ st.1.map Prod.fst, k ∈ st.2)

/-- Behaviour of one traversal level: the state invariant is preserved,
the visited set only grows, and every newly collected key was unvisited
when the level started. -/
def TravOk (s : Store) (f : JVal → TravSt → TravSt) : Prop :=
  ∀ it st, TravInv s st →
    TravInv s (f it st) ∧
    (∀ x ∈ st.2, x ∈ (f it st).2) ∧
    (∀ k ∈ (f it st).1.map Prod.fst, k ∈ st.1.map Prod.fst ∨ k ∉ st.2)

/-- The relation between a `(uid, item)` pair of a document and the
corresponding pair after the status point-update: same uid, and the
status field set exactly for the updated uid. -/
def statusSetRel (u st : String) (p q : String × JVal) : Prop :=
  q.1 = p.1 ∧
  objGet q.2 "status" =
    (if p.1 = u then some (JVal.str st) else objGet p.2 "status")

/-! ## Concrete stores used in the acceptance examples -/

/-- A requirement item with only identity and relationship fields. -/
def reqItem (u : String) (refs : List String) : JVal :=
  .obj [("uid", .str u), ("related_to", .arr (refs.map JVal.str))]

/-- Two requirement items forming a `related_to` 2-cycle. -/
def cycleStore : Store :=
  (create_context emptyStore "requirements"
    [("requirements", .arr [reqItem "A" ["B"], reqItem "B" ["A"]])]).getD
    emptyStore

/-- Four requirement items forming a `related_to` chain A, B, C, D. -/
def chainStore : Store :=
  (create_context emptyStore "requirements"
    [("requirements", .arr
      [reqItem "A" ["B"], reqItem "B" ["C"], reqItem "C" ["D"],
       reqItem "D" []])]).getD emptyStore

/-- One requirement whose `related_to` references a uid with no index
entry (a dangling reference). -/
def dangleStore : Store :=
  (create_context emptyStore "requirements"
    [("requirements", .arr [reqItem "A" ["X"]])]).getD emptyStore

/-- A requirement item carrying the duplicated uid `u` and title `x`. -/
def dupItemX : JVal := .obj [("uid", .str "u"), ("title", .str "x")]

/-- A requirement item carrying the duplicated uid `u` and title `y`. -/
def dupItemY : JVal := .obj [("uid", .str "u"), ("title", .str "y")]

/-- A requirements document containing two items with the same uid. -/
def dupDoc : Doc := [("requirements", .arr [dupItemX, dupItemY])]

/-- The store after one `create_context` call storing `dupDoc`. -/
def dupStore : Store :=
  applyOps emptyStore [Op.create "requirements" dupDoc]

/-- The single operation building `cycleStore` from a fresh database. -/
def cycleOp : Op :=
  Op.create "requirements"
    [("requirements", .arr [reqItem "A" ["B"], reqItem "B" ["A"]])]

/-- The requirement item of the status review example. -/
def reviewItem : JVal :=
  .obj [("uid", .str "req-aaaa1111"), ("title", .str "Requirement"),
    ("status", .str "new"), ("related_to", .arr [])]

/-- The requirements document of the status review example. -/
def reviewDoc : Doc := [("requirements", .arr [reviewItem])]

/-- The store holding one requirement with status `new`. -/
def reviewStore : Store :=
  (create_context emptyStore "requirements" reviewDoc).getD emptyStore

/-! ## Dictionary lemmas -/

theorem docGet_docSet (m : Doc) (k k' : String) (v : JVal) :
    docGet (docSet m k v) k' = if k = k' then some v else docGet m k' := by
  induction m with
  | nil => by_cases hk : k = k' <;> simp [docGet, docSet, hk]
  | cons kv rest ih =>
      obtain ⟨k₀, v₀⟩ := kv
      by_cases h₀ : k₀ = k <;> by_cases hk : k = k'
      · subst h₀; subst hk; simp [docGet, docSet]
      · subst h₀; simp [docGet, docSet, hk]
      · subst hk; simp [docGet, docSet, h₀, ih]
      · simp [docGet, docSet, h₀, hk, ih]

theorem docGet_dictUpdate_not_mem (e d : Doc) (k : String)
    (h : k ∉ d.map Prod.fst) :
    docGet (dictUpdate e d) k = docGet e k := by
  induction d generalizing e with
  | nil => rfl
  | cons kv d' ih =>
      obtain ⟨k₀, v₀⟩ := kv
      simp only [List.map_cons, List.mem_cons] at h
      push_neg at h
      show docGet (dictUpdate (docSet e k₀ v₀) d') k = docGet e k
      rw [ih (docSet e k₀ v₀) h.2, docGet_docSet]
      exact if_neg fun hh => h.1 hh.symm

theorem docGet_dictUpdate (e d : Doc) (k : String)
    (hd : (d.map Prod.fst).Nodup) :
    docGet (dictUpdate e d) k =
      match docGet d k with
      | some v => some v
      | none => docGet e k := by
  induction d generalizing e with
  | nil => rfl
  | cons kv d' ih =>
      obtain ⟨k₀, v₀⟩ := kv
      simp only [List.map_cons, List.nodup_cons] at hd
      show docGet (dictUpdate (docSet e k₀ v₀) d') k = _
      by_cases hk : k₀ = k
      · subst hk
        rw [docGet_dictUpdate_not_mem _ _ _ hd.1, docGet_docSet]
        simp [docGet]
      · rw [ih _ hd.2]
        simp only [docGet, hk, if_false]
        cases docGet d' k with
        | some v => rfl
        | none => rw [docGet_docSet]; simp [hk]

theorem ctxGet_ctxPut_self (ctxs : List (String × Doc)) (cid : String)
    (d : Doc) : ctxGet (ctxPut ctxs cid d) cid = some d := by
  induction ctxs with
  | nil => simp [ctxGet, ctxPut]
  | cons c rest ih =>
      obtain ⟨c₀, d₀⟩ := c
      by_cases h : c₀ = cid
      · subst h; simp [ctxGet, ctxPut]
      · simp [ctxGet, ctxPut, h, ih]

theorem context_exists_eq_isSome (s : Store) (cid : String) :
    context_exists s cid = (read_context s cid).isSome := rfl

theorem read_context_update (s : Store) (cid : String) (d : Doc) (m : Bool) :
    read_context (update_context s cid d m) cid =
      some (if m ∧ context_exists s cid then
              match read_context s cid with
              | some e => dictUpdate e d
              | none => d
            else d) := by
  unfold update_context read_context reindexContext
  split <;> exact ctxGet_ctxPut_self ..

/-! ## Claim theorems: document store semantics -/

/-- C6: for every layer `L` and document `D`, reading `L` immediately
after `update_context L D (merge := false)` returns a document equal to
`D` (`json.dumps` and `json.loads` round-trip JSON-compatible values, so
deep equality of the stored document is equality in the model). -/
theorem C6_read_after_replace_roundtrip (s : Store) (cid : String) (d : Doc) :
    read_context (update_context s cid d false) cid = some d := by
  rw [read_context_update]; simp

/-- Witness for C6-style use at a concrete input is not needed: the
round-trip theorem has no hypothesis.  This auxiliary equation records
the unfolding of a merge update over an existing document used below. -/
theorem read_context_update_merge (s : Store) (cid : String) (d e : Doc)
    (h : read_context s cid = some e) :
    read_context (update_context s cid d true) cid =
      some (dictUpdate e d) := by
  rw [read_context_update]
  have hex : context_exists s cid = true := by
    rw [context_exists_eq_isSome, h]; rfl
  simp [hex, h]

/-- C5: `update_context` with `merge := true` over an existing document
performs a shallow top-level merge (keys of the update overwrite
matching keys, all other existing keys are untouched), with
`merge := false` it replaces the document wholesale, and when the layer
has no document yet the update creates it instead of failing; the
concrete merge of `a ↦ 1` into `a ↦ 0, b ↦ 2` yields `a ↦ 1, b ↦ 2`. -/
theorem C5_update_merge_semantics :
    (∀ s cid d e, read_context s cid = some e →
      read_context (update_context s cid d true) cid =
        some (dictUpdate e d)) ∧
    (∀ e d k v, (d.map Prod.fst).Nodup → docGet d k = some v →
      docGet (dictUpdate e d) k = some v) ∧
    (∀ e d k, (d.map Prod.fst).Nodup → docGet d k = none →
      docGet (dictUpdate e d) k = docGet e k) ∧
    (∀ s cid d, read_context (update_context s cid d false) cid = some d) ∧
    (∀ s cid d, context_exists s cid = false →
      read_context (update_context s cid d true) cid = some d ∧
        context_exists (update_context s cid d true) cid = true) ∧
    read_context
        (update_context
          (update_context emptyStore "overview"
            [("a", JVal.num 0), ("b", JVal.num 2)] false)
          "overview" [("a", JVal.num 1)] true)
        "overview" =
      some [("a", JVal.num 1), ("b", JVal.num 2)] := by
  refine ⟨fun s cid d e h => read_context_update_merge s cid d e h,
    fun e d k v hd h => ?_, fun e d k hd h => ?_,
    fun s cid d => by rw [read_context_update]; simp,
    fun s cid d h => ?_, ?_⟩
  · rw [docGet_dictUpdate e d k hd, h]
  · rw [docGet_dictUpdate e d k hd, h]
  · constructor
    · rw [read_context_update]; simp [h]
    · rw [context_exists_eq_isSome, read_context_update]; rfl
  · rfl

/-- Witness for C5: the general parts applied at concrete inputs.  The
merge of `a ↦ 1` into the stored `a ↦ 0, b ↦ 2` overwrites `a`, keeps
`b`, and an update on an absent layer creates it. -/
theorem C5_update_merge_semantics_witness :
    read_context
        (update_context
          (update_context emptyStore "overview"
            [("a", JVal.num 0), ("b", JVal.num 2)] false)
          "overview" [("a", JVal.num 1)] true)
        "overview" =
      some (dictUpdate [("a", JVal.num 0), ("b", JVal.num 2)]
        [("a", JVal.num 1)]) ∧
    docGet (dictUpdate [("a", JVal.num 0), ("b", JVal.num 2)]
        [("a", JVal.num 1)]) "b" = some (JVal.num 2) ∧
    read_context (update_context emptyStore "ideas" [("x", JVal.null)] true)
        "ideas" = some [("x", JVal.null)] := by
  refine ⟨C5_update_merge_semantics.1 _ _ _ _ rfl, ?_, ?_⟩
  · exact C5_update_merge_semantics.2.2.1 _ _ "b" (by simp) rfl
  · exact (C5_update_merge_semantics.2.2.2.2.1 emptyStore "ideas"
      [("x", JVal.null)] rfl).1

/-! ## Identity assignment lemmas -/

theorem sha256_length (msg : List Nat) : (sha256 msg).length = 32 := by
  simp [sha256, word32Bytes]

theorem flatMap_byteHexChars_length (l : List Nat) :
    (l.flatMap byteHexChars).length = 2 * l.length := by
  induction l with
  | nil => rfl
  | cons b l ih => simp [byteHexChars, ih]; ring

theorem sha256hexChars_length (s : String) : (sha256hexChars s).length = 64 := by
  rw [sha256hexChars, flatMap_byteHexChars_length, sha256_length]

theorem isHexLower_hexChar : ∀ m, m < 16 → isHexLower (hexChar m) = true := by
  decide

theorem byteHexChars_hexLower (b : Nat) :
    ∀ c ∈ byteHexChars b, isHexLower c = true := by
  intro c hc
  simp only [byteHexChars, List.mem_cons, List.not_mem_nil, or_false] at hc
  rcases hc with h | h <;> rw [h] <;>
    exact isHexLower_hexChar _ (Nat.mod_lt _ (by decide))

/-! ## Claim theorems: identity assignment -/

/-- C8: `make_uid` is deterministic (a pure function of the kind and the
part tuple) and its result is exactly the kind, a dash, and the first
eight characters of the lowercase hex SHA-256 digest of the parts
joined with a colon: eight characters, all lowercase hex digits. -/
theorem C8_make_uid_deterministic_format (pre : String) (parts : List String) :
    make_uid pre parts = make_uid pre parts ∧
    make_uid pre parts =
      pre ++ "-" ++
        String.mk ((sha256hexChars (String.intercalate ":" parts)).take 8) ∧
    (String.mk
      ((sha256hexChars (String.intercalate ":" parts)).take 8)).length = 8 ∧
    ∀ c ∈ (sha256hexChars (String.intercalate ":" parts)).take 8,
      isHexLower c = true := by
  refine ⟨rfl, rfl, ?_, ?_⟩
  · show ((sha256hexChars (String.intercalate ":" parts)).take 8).length = 8
    rw [List.length_take, sha256hexChars_length]
    rfl
  · intro c hc
    have hmem := List.take_subset 8 _ hc
    obtain ⟨b, _, hb⟩ := List.mem_flatMap.mp hmem
    exact byteHexChars_hexLower b c hb

/-- C9 counterexample: two different part tuples whose colon-joins
coincide produce the same uid although the underlying content hash is
applied to identical input, so no hash collision is involved. -/
theorem C9_counterexample :
    make_uid "req" ["a:b"] = make_uid "req" ["a", "b"] ∧
    (["a:b"] : List String) ≠ ["a", "b"] ∧
    String.intercalate ":" ["a:b"] = String.intercalate ":" ["a", "b"] := by
  refine ⟨?_, by decide, by decide⟩
  have h : String.intercalate ":" ["a:b"] = String.intercalate ":" ["a", "b"] :=
    by decide
  unfold make_uid
  rw [h]

/-- C9 amended: uids with the same kind coincide exactly when the first
eight hex characters of the SHA-256 digests of the colon-joined parts
coincide; distinct part tuples with distinct joins therefore collide
only through a (truncated) hash collision, while distinct tuples whose
joins coincide (a colon inside a part) always collide. -/
theorem C9_make_uid_collision_iff (pre : String) (p1 p2 : List String) :
    make_uid pre p1 = make_uid pre p2 ↔
      (sha256hexChars (String.intercalate ":" p1)).take 8 =
        (sha256hexChars (String.intercalate ":" p2)).take 8 := by
  constructor
  · intro h
    unfold make_uid at h
    have hd := congrArg String.data h
    have hsplit : ∀ l : List Char,
        ((pre ++ "-" ++ String.mk l) : String).data = pre.data ++ '-' :: l := by
      intro l
      rw [String.data_append, String.data_append, List.append_assoc]
      rfl
    rw [hsplit, hsplit] at hd
    exact List.cons_injective (List.append_cancel_left hd)
  · intro h
    unfold make_uid
    rw [h]

/-! ## Merge site lemmas -/

theorem backfill_fold_spec (extra l sn : List String)
    (hmem : ∀ x, x ∈ sn ↔ x ∈ l) :
    (∀ x, x ∈ (extra.foldl
        (fun st uid => if uid ∈ st.2 then st else (st.1 ++ [uid], uid :: st.2))
        (l, sn)).1 ↔ x ∈ l ∨ x ∈ extra) ∧
    (l.Nodup → (extra.foldl
        (fun st uid => if uid ∈ st.2 then st else (st.1 ++ [uid], uid :: st.2))
        (l, sn)).1.Nodup) := by
  induction extra generalizing l sn with
  | nil => exact ⟨fun x => by simp, fun h => h⟩
  | cons uid rest ih =>
      by_cases hu : uid ∈ sn
      · have := ih l sn hmem
        simp only [List.foldl_cons, if_pos hu]
        refine ⟨fun x => ?_, this.2⟩
        rw [(this.1 x)]
        constructor
        · rintro (h | h)
          · exact Or.inl h
          · exact Or.inr (List.mem_cons_of_mem _ h)
        · rintro (h | h)
          · exact Or.inl h
          · rcases List.mem_cons.mp h with rfl | h
            · exact Or.inl ((hmem x).mp hu)
            · exact Or.inr h
      · have hmem' : ∀ x, x ∈ uid :: sn ↔ x ∈ l ++ [uid] := by
          intro x
          rw [List.mem_cons, List.mem_append, List.mem_singleton, hmem x,
            or_comm]
        have := ih (l ++ [uid]) (uid :: sn) hmem'
        simp only [List.foldl_cons, if_neg hu]
        constructor
        · intro x
          rw [this.1 x, List.mem_append, List.mem_singleton, List.mem_cons]
          tauto
        · intro hl
          refine this.2 ?_
          have hnot : uid ∉ l := fun h => hu ((hmem uid).mpr h)
          exact ((List.perm_append_singleton uid l).nodup_iff).mpr
            (List.nodup_cons.mpr ⟨hnot, hl⟩)

/-! ## Claim theorems: merge sites -/

/-- C7 counterexample: the initializer back-fill site keeps an existing
duplicate, so it does not compute the duplicate-free union that the two
service sites compute; on `existing = [a, a]` the back-fill returns
`[a, a]` while the requirement-service merge returns `[a]`. -/
theorem C7_counterexample :
    backfill_merge_related ["a", "a"] [] = ["a", "a"] ∧
    ¬ (backfill_merge_related ["a", "a"] []).Nodup ∧
    update_requirement_related ["a", "a"] [] = ["a"] := by
  refine ⟨rfl, by decide, by decide⟩

/-- C7 amended: all three merge sites compute a union with the same
elements (a uid is in the result exactly when it is in the existing or
the new list), and the two set-based service sites compute identical
duplicate-free results; the back-fill site preserves the existing list
as it stands (including duplicates it already contains, so its result
is duplicate-free only when the existing list is) and appends each new
uid at most once, while the set-based sites do not preserve the order
of the existing entries (Python set iteration order). -/
theorem C7_merge_union_semantics (existing new : List String) :
    (∀ x, x ∈ update_requirement_related existing new ↔
      x ∈ existing ∨ x ∈ new) ∧
    (update_requirement_related existing new).Nodup ∧
    update_architecture_related existing new =
      update_requirement_related existing new ∧
    (∀ x, x ∈ backfill_merge_related existing new ↔
      x ∈ existing ∨ x ∈ new) ∧
    (existing.Nodup → (backfill_merge_related existing new).Nodup) := by
  have hb := backfill_fold_spec new existing existing (fun x => Iff.rfl)
  exact ⟨fun x => by simp [update_requirement_related],
    (List.nodup_dedup _),
    rfl,
    hb.1,
    hb.2⟩

/-- Witness for C7 amended at a concrete input: merging `[b]` into
`[a]` at each site contains exactly the union, and the back-fill result
is duplicate-free because the existing list is. -/
theorem C7_merge_union_semantics_witness :
    ("b" ∈ update_requirement_related ["a"] ["b"] ↔
      "b" ∈ ["a"] ∨ "b" ∈ ["b"]) ∧
    (backfill_merge_related ["a"] ["b"]).Nodup := by
  exact ⟨(C7_merge_union_semantics ["a"] ["b"]).1 "b",
    (C7_merge_union_semantics ["a"] ["b"]).2.2.2.2 (by decide)⟩

/-! ## Traversal lemmas -/

theorem goRefs_ok (s : Store) (rec : JVal → TravSt → TravSt)
    (hrec : TravOk s rec) (refs : List String) :
    ∀ st, TravInv s st →
      TravInv s (goRefs s rec refs st) ∧
      (∀ x ∈ st.2, x ∈ (goRefs s rec refs st).2) ∧
      (∀ k ∈ (goRefs s rec refs st).1.map Prod.fst,
        k ∈ st.1.map Prod.fst ∨ k ∉ st.2) := by
  induction refs with
  | nil => exact fun st h => ⟨h, fun x hx => hx, fun k hk => Or.inl hk⟩
  | cons ref rest ih =>
      rintro ⟨c, v⟩ h
      by_cases hv : ref ∈ v
      · simpa [goRefs, hv] using ih (c, v) h
      · have hrefc : ref ∉ c.map Prod.fst := fun hm => hv (h.2.2 ref hm)
        cases hfind : find_by_uid s ref with
        | none =>
            have h1 : TravInv s (c, ref :: v) :=
              ⟨h.1, h.2.1, fun k hk => List.mem_cons_of_mem _ (h.2.2 k hk)⟩
            have := ih (c, ref :: v) h1
            refine ⟨?_, fun x hx => ?_, fun k hk => ?_⟩
            · simpa [goRefs, hv, hfind] using this.1
            · simpa [goRefs, hv, hfind] using
                this.2.1 x (List.mem_cons_of_mem _ hx)
            · have hk' : k ∈ (goRefs s rec rest (c, ref :: v)).1.map
                  Prod.fst := by simpa [goRefs, hv, hfind] using hk
              rcases this.2.2 k hk' with h' | h'
              · exact Or.inl h'
              · exact Or.inr fun hkv => h' (List.mem_cons_of_mem _ hkv)
        | some it =>
            have h1 : TravInv s (c ++ [(ref, it)], ref :: v) := by
              refine ⟨fun p hp => ?_, ?_, fun k hk => ?_⟩
              · rcases List.mem_append.mp hp with h' | h'
                · exact h.1 p h'
                · rcases List.mem_singleton.mp h'
                  exact hfind
              · show ((c ++ [(ref, it)]).map Prod.fst).Nodup
                rw [List.map_append]
                exact ((List.perm_append_singleton _ _).nodup_iff).mpr
                  (List.nodup_cons.mpr ⟨hrefc, h.2.1⟩)
              · rw [show ((c ++ [(ref, it)], ref :: v) : TravSt).1 =
                    c ++ [(ref, it)] from rfl, List.map_append] at hk
                rcases List.mem_append.mp hk with h' | h'
                · exact List.mem_cons_of_mem _ (h.2.2 k h')
                · rcases List.mem_singleton.mp (by simpa using h')
                  exact List.mem_cons_self _ _
            have h2 := hrec it (c ++ [(ref, it)], ref :: v) h1
            have h3 := ih (rec it (c ++ [(ref, it)], ref :: v)) h2.1
            refine ⟨?_, fun x hx => ?_, fun k hk => ?_⟩
            · simpa [goRefs, hv, hfind] using h3.1
            · have : x ∈ (rec it (c ++ [(ref, it)], ref :: v)).2 :=
                h2.2.1 x (List.mem_cons_of_mem _ hx)
              simpa [goRefs, hv, hfind] using h3.2.1 x this
            · have hk3 : k ∈ (goRefs s rec rest
                  (rec it (c ++ [(ref, it)], ref :: v))).1.map
                  Prod.fst := by simpa [goRefs, hv, hfind] using hk
              rcases h3.2.2 k hk3 with h' | h'
              · rcases h2.2.2 k h' with h'' | h''
                · rw [show ((c ++ [(ref, it)], ref :: v) : TravSt).1 =
                      c ++ [(ref, it)] from rfl, List.map_append] at h''
                  rcases List.mem_append.mp h'' with hc | hc
                  · exact Or.inl hc
                  · rcases List.mem_singleton.mp (by simpa using hc)
                    exact Or.inr hv
                · exact Or.inr fun hkv => h'' (List.mem_cons_of_mem _ hkv)
              · exact Or.inr fun hkv =>
                  h' (h2.2.1 k (List.mem_cons_of_mem _ hkv))

theorem traverse_ok (s : Store) (d : Nat) : TravOk s (traverse s d) := by
  induction d with
  | zero => exact fun it st h => ⟨h, fun x hx => hx, fun k hk => Or.inl hk⟩
  | succ d ih =>
      exact fun it st h =>
        goRefs_ok s (traverse s d) ih (objStrings it "related_to") st h

theorem gather_related_spec (s : Store) (uid : String) (depth : Int) :
    uid ∉ (gather_related s uid depth).related.map Prod.fst ∧
    ((gather_related s uid depth).related.map Prod.fst).Nodup ∧
    ∀ p ∈ (gather_related s uid depth).related,
      find_by_uid s p.1 = some p.2 := by
  unfold gather_related
  cases hf : find_by_uid s uid with
  | none => simp
  | some root =>
      have h0 : TravInv s (([], [uid]) : TravSt) :=
        ⟨by simp, by simp, by simp⟩
      have h := traverse_ok s depth.toNat root ([], [uid]) h0
      refine ⟨fun hmem => ?_, h.1.2.1, h.1.1⟩
      rcases h.2.2 uid (by simpa using hmem) with h' | h'
      · simp at h'
      · exact h' (List.mem_singleton.mpr rfl)

/-! ## Claim theorems: relationship traversal -/

/-- C3: `gather_related` is a total function (it terminates for every
depth and store), the returned `related` map never contains the seed
uid and never contains a uid twice; on the concrete 2-cycle A-B,
gathering from A at depth 5 returns exactly B. -/
theorem C3_gather_cycle_safe (s : Store) (uid : String) (depth : Int) :
    uid ∉ (gather_related s uid depth).related.map Prod.fst ∧
    ((gather_related s uid depth).related.map Prod.fst).Nodup ∧
    gather_related cycleStore "A" 5 =
      ⟨some (reqItem "A" ["B"]), [("B", reqItem "B" ["A"])]⟩ := by
  exact ⟨(gather_related_spec s uid depth).1,
    (gather_related_spec s uid depth).2.1, rfl⟩

/-- C4: depth 0 returns only the root item with an empty related map,
and on the concrete chain A, B, C, D depth 1 gathers exactly B while
depth 2 gathers exactly B and C. -/
theorem C4_gather_depth_bound :
    (∀ (s : Store) (uid : String),
      (gather_related s uid 0).related = [] ∧
      (gather_related s uid 0).root = find_by_uid s uid) ∧
    (gather_related chainStore "A" 1).related = [("B", reqItem "B" ["C"])] ∧
    (gather_related chainStore "A" 2).related =
      [("B", reqItem "B" ["C"]), ("C", reqItem "C" ["D"])] := by
  refine ⟨fun s uid => ?_, rfl, rfl⟩
  unfold gather_related
  cases hf : find_by_uid s uid with
  | none => exact ⟨rfl, rfl⟩
  | some root => exact ⟨rfl, rfl⟩

/-- C10: an unresolvable seed uid yields `root = none` and an empty
related map rather than an error, and every entry of the related map
was resolved through the index, so a dangling `related_to` reference
(one the index cannot resolve) appears nowhere in the result. -/
theorem C10_gather_missing_uid_tolerant (s : Store) (uid : String)
    (depth : Int) :
    (find_by_uid s uid = none →
      gather_related s uid depth = ⟨none, []⟩) ∧
    (∀ p ∈ (gather_related s uid depth).related,
      find_by_uid s p.1 = some p.2) ∧
    (∀ u, find_by_uid s u = none →
      u ∉ (gather_related s uid depth).related.map Prod.fst) := by
  refine ⟨fun h => ?_, (gather_related_spec s uid depth).2.2,
    fun u hu hmem => ?_⟩
  · unfold gather_related
    rw [h]
  · obtain ⟨p, hp, hfst⟩ := List.mem_map.mp hmem
    have := (gather_related_spec s uid depth).2.2 p hp
    rw [hfst] at this
    rw [hu] at this
    exact Option.noConfusion this

/-- Witness for C10: gathering from the absent uid Z returns the empty
bundle, and the dangling reference X of item A appears nowhere in the
traversal result from A. -/
theorem C10_gather_missing_uid_tolerant_witness :
    gather_related dangleStore "Z" 3 = ⟨none, []⟩ ∧
    "X" ∉ (gather_related dangleStore "A" 3).related.map Prod.fst := by
  exact ⟨(C10_gather_missing_uid_tolerant dangleStore "Z" 3).1 rfl,
    (C10_gather_missing_uid_tolerant dangleStore "A" 3).2.2 "X" rfl⟩

/-! ## Index table lemmas -/

theorem idxGet_cons_self (u c : String) (it : JVal) (rest : List IdxRow) :
    idxGet ((u, c, it) :: rest) u = some (c, it) := by
  simp [idxGet]

theorem idxGet_cons_ne (u u' c : String) (it : JVal) (rest : List IdxRow)
    (h : u' ≠ u) : idxGet ((u', c, it) :: rest) u = idxGet rest u := by
  simp [idxGet, h]

theorem idxGet_mem (idx : List IdxRow) (u : String) (p : String × JVal)
    (h : idxGet idx u = some p) : (u, p) ∈ idx := by
  induction idx with
  | nil => exact absurd h (by simp [idxGet])
  | cons r rest ih =>
      obtain ⟨u', c, it⟩ := r
      by_cases hu : u' = u
      · subst hu
        rw [idxGet_cons_self] at h
        injection h with h
        rw [← h]
        exact List.mem_cons_self _ _
      · rw [idxGet_cons_ne _ _ _ _ _ hu] at h
        exact List.mem_cons_of_mem _ (ih h)

theorem idxGet_eq_none_iff (idx : List IdxRow) (u : String) :
    idxGet idx u = none ↔ u ∉ idx.map (fun r => r.1) := by
  induction idx with
  | nil => simp [idxGet]
  | cons r rest ih =>
      obtain ⟨u', c, it⟩ := r
      by_cases hu : u' = u
      · subst hu; simp [idxGet]
      · have hu' : u ≠ u' := fun h => hu h.symm
        rw [idxGet_cons_ne _ _ _ _ _ hu]
        simp [ih, hu']

theorem mem_idxGet (idx : List IdxRow) (u : String) (p : String × JVal)
    (hnd : (idx.map (fun r => r.1)).Nodup) (h : (u, p) ∈ idx) :
    idxGet idx u = some p := by
  obtain ⟨pc, pi⟩ := p
  induction idx with
  | nil => exact absurd h (List.not_mem_nil _)
  | cons r rest ih =>
      obtain ⟨u', c, it⟩ := r
      simp only [List.map_cons, List.nodup_cons] at hnd
      rcases List.mem_cons.mp h with h' | h'
      · cases h'.symm
        exact idxGet_cons_self u pc pi rest
      · have hne : u' ≠ u := by
          intro he
          subst he
          exact hnd.1 (List.mem_map.mpr ⟨(u', pc, pi), h', rfl⟩)
        rw [idxGet_cons_ne _ _ _ _ _ hne]
        exact ih hnd.2 h'

theorem idxGet_perm (idx idx' : List IdxRow) (u : String)
    (hp : idx.Perm idx') (hnd : (idx.map (fun r => r.1)).Nodup) :
    idxGet idx u = idxGet idx' u := by
  have hnd' : (idx'.map (fun r => r.1)).Nodup := ((hp.map _).nodup_iff).mp hnd
  cases h : idxGet idx u with
  | some p =>
      exact (mem_idxGet idx' u p hnd' (hp.mem_iff.mp (idxGet_mem idx u p h))).symm
  | none =>
      cases h' : idxGet idx' u with
      | none => rfl
      | some p =>
          have := hp.mem_iff.mpr (idxGet_mem idx' u p h')
          have hn := (idxGet_eq_none_iff idx u).mp h
          exact absurd (List.mem_map.mpr ⟨(u, p), this, rfl⟩) hn

theorem idxPut_fresh (idx : List IdxRow) (u cid : String) (it : JVal)
    (h : u ∉ idx.map (fun r => r.1)) :
    idxPut idx u cid it = idx ++ [(u, cid, it)] := by
  induction idx with
  | nil => rfl
  | cons r rest ih =>
      obtain ⟨u', c', it'⟩ := r
      simp only [List.map_cons, List.mem_cons] at h
      push_neg at h
      have hne : u' ≠ u := fun he => h.1 he.symm
      have hstep : idxPut ((u', c', it') :: rest) u cid it =
          (u', c', it') :: idxPut rest u cid it := by
        simp [idxPut, hne]
      rw [hstep, ih h.2]
      rfl

theorem foldl_idxPut_fresh (rows : List (String × JVal)) (cid : String)
    (acc : List IdxRow) (hnd : (rows.map Prod.fst).Nodup)
    (hfresh : ∀ u ∈ rows.map Prod.fst, u ∉ acc.map (fun r => r.1)) :
    rows.foldl (fun a p => idxPut a p.1 cid p.2) acc =
      acc ++ rows.map (fun p => (p.1, cid, p.2)) := by
  induction rows generalizing acc with
  | nil => simp
  | cons p rest ih =>
      obtain ⟨u, it⟩ := p
      simp only [List.map_cons, List.nodup_cons] at hnd
      have hput : idxPut acc u cid it = acc ++ [(u, cid, it)] :=
        idxPut_fresh acc u cid it (hfresh u (by simp))
      simp only [List.foldl_cons, hput]
      rw [ih (acc ++ [(u, cid, it)]) hnd.2 ?_]
      · simp
      · intro x hx
        simp only [List.map_append, List.mem_append, List.map_cons]
        rintro (hxa | hxb)
        · exact hfresh x (List.mem_cons_of_mem _ hx) hxa
        · simp only [List.map_cons, List.map_nil, List.mem_singleton] at hxb
          subst hxb
          exact hnd.1 hx

/-! ## Walk lemmas -/

theorem walkRows_append (xs ys : List (String × Doc)) :
    walkRows (xs ++ ys) = walkRows xs ++ walkRows ys := by
  simp [walkRows]

theorem walkRows_cons (c₀ : String) (d₀ : Doc) (rest : List (String × Doc)) :
    walkRows ((c₀, d₀) :: rest) = rowsOf c₀ d₀ ++ walkRows rest := by
  simp [walkRows, rowsOf]

theorem mem_rowsOf_ctx (cid : String) (d : Doc) :
    ∀ r ∈ rowsOf cid d, r.2.1 = cid := by
  intro r hr
  obtain ⟨p, _, hp⟩ := List.mem_map.mp hr
  rw [← hp]

theorem mem_walkRows_ctx (ctxs : List (String × Doc)) :
    ∀ r ∈ walkRows ctxs, r.2.1 ∈ ctxs.map Prod.fst := by
  intro r hr
  obtain ⟨c, hc, hrc⟩ := List.mem_flatMap.mp hr
  rw [mem_rowsOf_ctx c.1 c.2 r hrc]
  exact List.mem_map.mpr ⟨c, hc, rfl⟩

theorem filter_rowsOf_self (cid cid' : String) (d : Doc) (h : cid ≠ cid') :
    (rowsOf cid d).filter (fun r => r.2.1 ≠ cid') = rowsOf cid d := by
  rw [List.filter_eq_self]
  intro r hr
  rw [mem_rowsOf_ctx cid d r hr]
  simpa using h

theorem filter_rowsOf_nil (cid : String) (d : Doc) :
    (rowsOf cid d).filter (fun r => r.2.1 ≠ cid) = [] := by
  rw [List.filter_eq_nil_iff]
  intro r hr
  rw [mem_rowsOf_ctx cid d r hr]
  simp

theorem filter_walkRows_self (ctxs : List (String × Doc)) (cid : String)
    (h : cid ∉ ctxs.map Prod.fst) :
    (walkRows ctxs).filter (fun r => r.2.1 ≠ cid) = walkRows ctxs := by
  rw [List.filter_eq_self]
  intro r hr
  have := mem_walkRows_ctx ctxs r hr
  simp only [ne_eq, decide_eq_true_eq]
  intro he
  rw [he] at this
  exact h this

theorem walkRows_filter (ctxs : List (String × Doc)) (cid : String) :
    walkRows (ctxs.filter (fun c => c.1 ≠ cid)) =
      (walkRows ctxs).filter (fun r => r.2.1 ≠ cid) := by
  induction ctxs with
  | nil => rfl
  | cons c rest ih =>
      obtain ⟨c₀, d₀⟩ := c
      by_cases hc : c₀ = cid
      · subst hc
        rw [List.filter_cons, if_neg (by simp), walkRows_cons,
          List.filter_append, filter_rowsOf_nil, List.nil_append]
        exact ih
      · rw [List.filter_cons, if_pos (by simp [hc]), walkRows_cons,
          walkRows_cons, List.filter_append, filter_rowsOf_self c₀ cid d₀ hc,
          ih]

theorem map_fst_ctxPut (ctxs : List (String × Doc)) (cid : String) (d : Doc) :
    (ctxPut ctxs cid d).map Prod.fst =
      if cid ∈ ctxs.map Prod.fst then ctxs.map Prod.fst
      else ctxs.map Prod.fst ++ [cid] := by
  induction ctxs with
  | nil => simp [ctxPut]
  | cons c rest ih =>
      obtain ⟨c₀, d₀⟩ := c
      by_cases hc : c₀ = cid
      · subst hc; simp [ctxPut]
      · have hc' : cid ≠ c₀ := fun h => hc h.symm
        simp only [ctxPut, if_neg hc, List.map_cons, ih]
        by_cases hm : cid ∈ rest.map Prod.fst
        · simp [hm, hc']
        · simp [hm, hc']

theorem walk_ctxPut (ctxs : List (String × Doc)) (cid : String) (d : Doc)
    (hnd : (ctxs.map Prod.fst).Nodup) :
    (walkRows (ctxPut ctxs cid d)).Perm
      ((walkRows ctxs).filter (fun r => r.2.1 ≠ cid) ++ rowsOf cid d) := by
  induction ctxs with
  | nil =>
      show (walkRows [(cid, d)]).Perm _
      rw [walkRows_cons]
      simp [walkRows]
  | cons c rest ih =>
      obtain ⟨c₀, d₀⟩ := c
      simp only [List.map_cons, List.nodup_cons] at hnd
      by_cases hc : c₀ = cid
      · subst hc
        have hput : ctxPut ((c₀, d₀) :: rest) c₀ d = (c₀, d) :: rest := by
          simp [ctxPut]
        rw [hput, walkRows_cons, walkRows_cons, List.filter_append,
          filter_rowsOf_nil, List.nil_append,
          filter_walkRows_self rest c₀ hnd.1]
        exact List.perm_append_comm
      · have hput : ctxPut ((c₀, d₀) :: rest) cid d =
            (c₀, d₀) :: ctxPut rest cid d := by
          simp [ctxPut, hc]
        rw [hput, walkRows_cons, walkRows_cons, List.filter_append,
          filter_rowsOf_self c₀ cid d₀ hc, List.append_assoc]
        exact (ih hnd.2).append_left (rowsOf c₀ d₀)

theorem ctxGet_eq_none_iff (ctxs : List (String × Doc)) (cid : String) :
    ctxGet ctxs cid = none ↔ cid ∉ ctxs.map Prod.fst := by
  induction ctxs with
  | nil => simp [ctxGet]
  | cons c rest ih =>
      obtain ⟨c₀, d₀⟩ := c
      by_cases hc : c₀ = cid
      · subst hc; simp [ctxGet]
      · have hc' : cid ≠ c₀ := fun h => hc h.symm
        simp [ctxGet, hc, hc', ih]

theorem ctxPut_fresh (ctxs : List (String × Doc)) (cid : String) (d : Doc)
    (h : cid ∉ ctxs.map Prod.fst) : ctxPut ctxs cid d = ctxs ++ [(cid, d)] := by
  induction ctxs with
  | nil => rfl
  | cons c rest ih =>
      obtain ⟨c₀, d₀⟩ := c
      simp only [List.map_cons, List.mem_cons] at h
      push_neg at h
      have hne : c₀ ≠ cid := fun he => h.1 he.symm
      simp only [ctxPut, if_neg hne, List.cons_append, List.cons.injEq,
        true_and]
      exact ih h.2

/-! ## Index invariant preservation -/

theorem reindex_rows_perm (idx W : List IdxRow) (cid : String) (data' : Doc)
    (hperm : idx.Perm W)
    (hnd : (((W.filter (fun r => r.2.1 ≠ cid)) ++ rowsOf cid data').map
      (fun r => r.1)).Nodup) :
    ((extractUidItems cid data').foldl (fun acc p => idxPut acc p.1 cid p.2)
      (idxDelete idx cid)).Perm
      ((W.filter (fun r => r.2.1 ≠ cid)) ++ rowsOf cid data') := by
  have hdel : (idxDelete idx cid).Perm
      (W.filter (fun r => r.2.1 ≠ cid)) := hperm.filter _
  rw [List.map_append, List.nodup_append] at hnd
  obtain ⟨hndF, hndR, hdisj⟩ := hnd
  have hkeys : (rowsOf cid data').map (fun r => r.1) =
      (extractUidItems cid data').map Prod.fst := by
    simp [rowsOf, List.map_map, Function.comp]
  have hndE : ((extractUidItems cid data').map Prod.fst).Nodup := by
    rw [← hkeys]; exact hndR
  have hfresh : ∀ u ∈ (extractUidItems cid data').map Prod.fst,
      u ∉ (idxDelete idx cid).map (fun r => r.1) := by
    intro u hu hmem
    have huF : u ∈ (W.filter (fun r => r.2.1 ≠ cid)).map (fun r => r.1) :=
      ((hdel.map _).mem_iff).mp hmem
    exact hdisj huF (hkeys ▸ hu)
  rw [foldl_idxPut_fresh _ cid _ hndE hfresh]
  exact (hdel.append_right _).trans (List.Perm.refl _)

theorem update_shape_inv (s : Store) (cid : String) (data' : Doc)
    (hperm : s.uidIndex.Perm (walkRows s.contexts))
    (hnd : (s.contexts.map Prod.fst).Nodup)
    (hg : Good (reindexContext
      { s with contexts := ctxPut s.contexts cid data' } cid data')) :
    StoreInv (reindexContext
      { s with contexts := ctxPut s.contexts cid data' } cid data') := by
  have hwalk := walk_ctxPut s.contexts cid data' hnd
  have hgood : ((walkRows (ctxPut s.contexts cid data')).map
      (fun r => r.1)).Nodup := hg
  have hndFR : ((((walkRows s.contexts).filter (fun r => r.2.1 ≠ cid)) ++
      rowsOf cid data').map (fun r => r.1)).Nodup :=
    ((hwalk.map _).nodup_iff).mp hgood
  constructor
  · show ((extractUidItems cid data').foldl
        (fun acc p => idxPut acc p.1 cid p.2)
        (idxDelete s.uidIndex cid)).Perm (walkRows (ctxPut s.contexts cid
          data'))
    exact (reindex_rows_perm s.uidIndex (walkRows s.contexts) cid data'
      hperm hndFR).trans hwalk.symm
  · show ((ctxPut s.contexts cid data').map Prod.fst).Nodup
    rw [map_fst_ctxPut]
    by_cases hm : cid ∈ s.contexts.map Prod.fst
    · simpa [hm] using hnd
    · rw [if_neg hm]
      exact ((List.perm_append_singleton _ _).nodup_iff).mpr
        (List.nodup_cons.mpr ⟨hm, hnd⟩)

theorem applyOp_inv (s : Store) (op : Op) (hinv : StoreInv s)
    (hg : Good (applyOp s op)) : StoreInv (applyOp s op) := by
  obtain ⟨hperm, hnd⟩ := hinv
  cases op with
  | create cid data =>
      by_cases hex : context_exists s cid
      · have heq : applyOp s (Op.create cid data) = s := by
          simp [applyOp, create_context, hex]
        rw [heq]
        exact ⟨hperm, hnd⟩
      · have hfresh : cid ∉ s.contexts.map Prod.fst := by
          refine (ctxGet_eq_none_iff s.contexts cid).mp ?_
          revert hex
          unfold context_exists
          cases ctxGet s.contexts cid <;> simp
        have happ : applyOp s (Op.create cid data) =
            reindexContext { s with contexts := ctxPut s.contexts cid data }
              cid data := by
          simp only [applyOp, create_context, hex, Bool.false_eq_true,
            if_false, Option.getD_some]
          rw [ctxPut_fresh s.contexts cid data hfresh]
        rw [happ] at hg ⊢
        exact update_shape_inv s cid data hperm hnd hg
  | update cid data merge =>
      exact update_shape_inv s cid _ hperm hnd hg
  | remove cid =>
      by_cases hex : context_exists s cid
      · have happ : applyOp s (Op.remove cid) =
            Store.mk (s.contexts.filter (fun c => c.1 ≠ cid))
              (idxDelete s.uidIndex cid) := by
          simp [applyOp, remove_context, hex]
        rw [happ] at hg ⊢
        constructor
        · show (idxDelete s.uidIndex cid).Perm
            (walkRows (s.contexts.filter (fun c => c.1 ≠ cid)))
          rw [walkRows_filter]
          exact hperm.filter _
        · show ((s.contexts.filter (fun c => c.1 ≠ cid)).map Prod.fst).Nodup
          exact hnd.sublist ((List.filter_sublist _).map _)
      · have heq : applyOp s (Op.remove cid) = s := by
          simp [applyOp, remove_context, hex]
        rw [heq]
        exact ⟨hperm, hnd⟩

theorem StoreInv_empty : StoreInv emptyStore :=
  ⟨List.Perm.refl _, List.nodup_nil⟩

theorem reachableGood_storeInv (s : Store) (h : ReachableGood s) :
    StoreInv s ∧ Good s := by
  induction h with
  | init => exact ⟨StoreInv_empty, by decide⟩
  | step s op hr hg ih => exact ⟨applyOp_inv s op ih.1 hg, hg⟩

/-! ## Claim theorems: index consistency -/

/-- C1 counterexample: a single `create_context` call whose document
contains two items with the same uid.  Walking the stored layer finds
the first item, but `find_by_uid` returns the second (the
`INSERT OR REPLACE` keyed on uid keeps only one row), so the index is
not consistent with the stored documents after this call sequence. -/
theorem C1_counterexample :
    applyOps emptyStore [Op.create "requirements" dupDoc] = dupStore ∧
    ("u", "requirements", dupItemX) ∈ walkRows dupStore.contexts ∧
    find_by_uid dupStore "u" = some dupItemY ∧
    dupItemY ≠ dupItemX := by
  refine ⟨rfl, ?_, rfl, ?_⟩
  · rw [show walkRows dupStore.contexts =
        [("u", "requirements", dupItemX), ("u", "requirements", dupItemY)]
        from rfl]
    exact List.mem_cons_self _ _
  · intro h
    have h1 : objGet dupItemY "title" = objGet dupItemX "title" := by rw [h]
    rw [show objGet dupItemY "title" = some (.str "y") from rfl,
      show objGet dupItemX "title" = some (.str "x") from rfl] at h1
    injection h1 with h2
    injection h2 with h3
    exact absurd h3 (by decide)

/-- C1 amended: after any sequence of create / update / remove calls in
which every reached store state keeps the uids extracted from all layer
documents pairwise distinct, the uid index is exactly consistent with
the stored documents: walking finds exactly the indexed items, and each
uid has exactly one walked item. -/
theorem C1_index_consistent_of_reachable (s : Store)
    (h : ReachableGood s) : IndexConsistent s := by
  obtain ⟨⟨hperm, _⟩, hg⟩ := reachableGood_storeInv s h
  have hndIdx : (s.uidIndex.map (fun r => r.1)).Nodup :=
    ((hperm.map _).nodup_iff).mpr hg
  refine ⟨fun r hr => ?_, fun u it hf => ?_, hg⟩
  · obtain ⟨u, cid, it⟩ := r
    have hmem : (u, (cid, it)) ∈ s.uidIndex := hperm.mem_iff.mpr hr
    have := mem_idxGet s.uidIndex u (cid, it) hndIdx hmem
    simp [find_by_uid, this]
  · unfold find_by_uid at hf
    cases hget : idxGet s.uidIndex u with
    | none => rw [hget] at hf; exact absurd hf (by simp)
    | some p =>
        rw [hget] at hf
        obtain ⟨cid, pit⟩ := p
        have hm := idxGet_mem s.uidIndex u (cid, pit) hget
        refine ⟨cid, ?_⟩
        have hit : pit = it := by
          have hsome : some pit = some it := hf
          injection hsome
        rw [← hit]
        exact hperm.mem_iff.mp hm

/-- Witness for C1 amended: the cycle store is reached by one good
create call, and its index is consistent with its stored documents. -/
theorem C1_index_consistent_of_reachable_witness :
    IndexConsistent cycleStore := by
  have hg : Good (applyOp emptyStore cycleOp) := by decide
  have h1 : ReachableGood (applyOp emptyStore cycleOp) :=
    ReachableGood.step emptyStore cycleOp ReachableGood.init hg
  exact C1_index_consistent_of_reachable cycleStore h1

/-! ## Object field lemmas for the status update -/

theorem objGet_objSet_self_of_obj (kvs : List (String × JVal)) (k : String)
    (x : JVal) : objGet (objSet (.obj kvs) k x) k = some x := by
  show docGet (docSet kvs k x) k = some x
  rw [docGet_docSet]
  simp

theorem objGet_objSet_ne (v : JVal) (k k' : String) (x : JVal)
    (h : k ≠ k') : objGet (objSet v k x) k' = objGet v k' := by
  cases v with
  | obj kvs =>
      show docGet (docSet kvs k x) k' = docGet kvs k'
      rw [docGet_docSet, if_neg h]
  | null => rfl
  | bool b => rfl
  | num n => rfl
  | str s => rfl
  | arr xs => rfl

theorem docMapField_cons (k₀ : String) (v₀ : JVal) (rest : Doc) (k : String)
    (f : JVal → JVal) :
    docMapField ((k₀, v₀) :: rest) k f =
      (if k₀ = k then (k₀, f v₀) else (k₀, v₀)) :: docMapField rest k f := by
  by_cases h : k₀ = k <;> simp [docMapField, h]

theorem docGet_docMapField (d : Doc) (k k' : String) (f : JVal → JVal) :
    docGet (docMapField d k f) k' =
      if k = k' then (docGet d k).map f else docGet d k' := by
  induction d with
  | nil => by_cases hk : k = k' <;> simp [docMapField, docGet, hk]
  | cons kv rest ih =>
      obtain ⟨k₀, v₀⟩ := kv
      rw [docMapField_cons]
      by_cases h₀ : k₀ = k
      · subst h₀
        rw [if_pos rfl]
        by_cases hk : k₀ = k'
        · subst hk; simp [docGet]
        · have hk' : ¬k₀ = k' := hk
          simp [docGet, hk', ih]
      · rw [if_neg h₀]
        by_cases hk : k₀ = k'
        · subst hk
          have h₀' : ¬k = k₀ := fun h => h₀ h.symm
          simp [docGet, h₀', ih]
        · simp [docGet, hk, h₀, ih]

theorem objGet_mapField_self (v : JVal) (k : String) (f : JVal → JVal) :
    objGet (mapField v k f) k = (objGet v k).map f := by
  cases v with
  | obj kvs =>
      show docGet (docMapField kvs k f) k = (docGet kvs k).map f
      rw [docGet_docMapField, if_pos rfl]
  | null => rfl
  | bool b => rfl
  | num n => rfl
  | str s => rfl
  | arr xs => rfl

theorem objGet_mapField_ne (v : JVal) (k k' : String) (f : JVal → JVal)
    (h : k ≠ k') : objGet (mapField v k f) k' = objGet v k' := by
  cases v with
  | obj kvs =>
      show docGet (docMapField kvs k f) k' = docGet kvs k'
      rw [docGet_docMapField, if_neg h]
  | null => rfl
  | bool b => rfl
  | num n => rfl
  | str s => rfl
  | arr xs => rfl

theorem docGet_docMapField_self (d : Doc) (k : String) (f : JVal → JVal) :
    docGet (docMapField d k f) k = (docGet d k).map f :=
  objGet_mapField_self (.obj d) k f

theorem objItems_mapField (v : JVal) (k : String) (g : JVal → JVal) :
    objItems (mapField v k (mapArr g)) k = (objItems v k).map g := by
  unfold objItems
  rw [objGet_mapField_self]
  cases objGet v k with
  | none => rfl
  | some w => cases w <;> rfl

theorem objItems_mapField_ne (v : JVal) (k k' : String) (f : JVal → JVal)
    (h : k ≠ k') : objItems (mapField v k f) k' = objItems v k' := by
  unfold objItems
  rw [objGet_mapField_ne v k k' f h]

theorem itemUid_mapField_ne (v : JVal) (k : String) (f : JVal → JVal)
    (h : k ≠ "uid") : itemUid (mapField v k f) = itemUid v := by
  unfold itemUid
  rw [objGet_mapField_ne v k "uid" f h]

theorem objGet_setIfUid_ne (u st : String) (it : JVal) (k : String)
    (h : k ≠ "status") : objGet (setIfUid u st it) k = objGet it k := by
  unfold setIfUid
  split
  · exact objGet_objSet_ne it "status" k _ (fun he => h he.symm)
  · rfl

theorem itemUid_setIfUid (u st : String) (it : JVal) :
    itemUid (setIfUid u st it) = itemUid it := by
  unfold itemUid
  rw [objGet_setIfUid_ne u st it "uid" (by decide)]

theorem objItems_setIfUid (u st : String) (v : JVal) (k : String)
    (h : k ≠ "status") : objItems (setIfUid u st v) k = objItems v k := by
  unfold objItems
  rw [objGet_setIfUid_ne u st v k h]

theorem itemUid_uid_field (it : JVal) (w : String) (h : itemUid it = some w) :
    objGet it "uid" = some (.str w) := by
  unfold itemUid at h
  cases hg : objGet it "uid" with
  | none => rw [hg] at h; exact absurd h (by simp)
  | some x =>
      rw [hg] at h
      cases x with
      | str s =>
          have h' : (if s = "" then none else some s : Option String) =
              some w := h
          by_cases hs : s = ""
          · rw [if_pos hs] at h'; exact absurd h' (by simp)
          · rw [if_neg hs] at h'
            injection h' with h'
            rw [h']
      | null => exact absurd h (by simp)
      | bool b => exact absurd h (by simp)
      | num n => exact absurd h (by simp)
      | arr xs => exact absurd h (by simp)
      | obj kvs => exact absurd h (by simp)

theorem status_setIfUid (u st : String) (it : JVal) (w : String)
    (h : itemUid it = some w) :
    objGet (setIfUid u st it) "status" =
      if w = u then some (JVal.str st) else objGet it "status" := by
  have hu : objGet it "uid" = some (.str w) := itemUid_uid_field it w h
  have hobj : ∃ kvs, it = .obj kvs := by
    cases it with
    | obj kvs => exact ⟨kvs, rfl⟩
    | null => exact absurd hu (by simp [objGet])
    | bool b => exact absurd hu (by simp [objGet])
    | num n => exact absurd hu (by simp [objGet])
    | str s => exact absurd hu (by simp [objGet])
    | arr xs => exact absurd hu (by simp [objGet])
  have huid : uidIs it u = decide (w = u) := by
    unfold uidIs
    rw [hu]
  by_cases hw : w = u
  · rw [if_pos hw]
    unfold setIfUid
    rw [huid, if_pos (by simp [hw])]
    obtain ⟨kvs, rfl⟩ := hobj
    exact objGet_objSet_self_of_obj kvs "status" _
  · rw [if_neg hw]
    unfold setIfUid
    rw [huid, if_neg (by simp [hw])]

theorem statusIs_eq_true (it : JVal) (st : String)
    (h : objGet it "status" = some (.str st)) : statusIs it st = true := by
  unfold statusIs
  rw [h]
  simp

theorem statusIs_eq_false (it : JVal) (st st' : String)
    (h : objGet it "status" = some (.str st)) (hne : st ≠ st') :
    statusIs it st' = false := by
  unfold statusIs
  rw [h]
  simp [hne]

/-! ## Forall₂ helpers -/

theorem forall₂_mem_left {R : (String × JVal) → (String × JVal) → Prop} :
    ∀ {l l' : List (String × JVal)}, List.Forall₂ R l l' →
      ∀ p ∈ l, ∃ q ∈ l', R p q := by
  intro l l' h
  induction h with
  | nil => intro p hp; exact absurd hp (List.not_mem_nil p)
  | cons hr ht ih =>
      intro p hp
      rcases List.mem_cons.mp hp with rfl | hp'
      · exact ⟨_, List.mem_cons_self _ _, hr⟩
      · obtain ⟨q, hq, hrq⟩ := ih p hp'
        exact ⟨q, List.mem_cons_of_mem _ hq, hrq⟩

theorem forall₂_mem_right {R : (String × JVal) → (String × JVal) → Prop} :
    ∀ {l l' : List (String × JVal)}, List.Forall₂ R l l' →
      ∀ q ∈ l', ∃ p ∈ l, R p q := by
  intro l l' h
  induction h with
  | nil => intro q hq; exact absurd hq (List.not_mem_nil q)
  | cons hr ht ih =>
      intro q hq
      rcases List.mem_cons.mp hq with rfl | hq'
      · exact ⟨_, List.mem_cons_self _ _, hr⟩
      · obtain ⟨p, hp, hrp⟩ := ih q hq'
        exact ⟨p, List.mem_cons_of_mem _ hp, hrp⟩

theorem forall₂_keys (u st : String) :
    ∀ {l l' : List (String × JVal)}, List.Forall₂ (statusSetRel u st) l l' →
      l'.map Prod.fst = l.map Prod.fst := by
  intro l l' h
  induction h with
  | nil => rfl
  | cons hr ht ih =>
      rw [List.map_cons, List.map_cons, ih, hr.1]

theorem forall₂_pairs (u st : String) (f : JVal → JVal)
    (hfu : ∀ r, itemUid (f r) = itemUid r)
    (hfs : ∀ r w, itemUid r = some w → objGet (f r) "status" =
      if w = u then some (JVal.str st) else objGet r "status")
    (rs : List JVal) :
    List.Forall₂ (statusSetRel u st)
      (rs.filterMap fun r => (itemUid r).map fun w => (w, r))
      ((rs.map f).filterMap fun r => (itemUid r).map fun w => (w, r)) := by
  induction rs with
  | nil => exact List.Forall₂.nil
  | cons r rest ih =>
      rw [List.map_cons, List.filterMap_cons, List.filterMap_cons, hfu r]
      cases hr : itemUid r with
      | none => exact ih
      | some w =>
          exact List.Forall₂.cons ⟨rfl, hfs r w hr⟩ ih

theorem forall₂_flatMap (R : (String × JVal) → (String × JVal) → Prop)
    (f : JVal → JVal) (e e' : JVal → List (String × JVal))
    (h : ∀ x, List.Forall₂ R (e x) (e' (f x))) (xs : List JVal) :
    List.Forall₂ R (xs.flatMap e) ((xs.map f).flatMap e') := by
  induction xs with
  | nil => exact List.Forall₂.nil
  | cons x rest ih =>
      rw [List.map_cons, List.flatMap_cons, List.flatMap_cons]
      exact List.rel_append (h x) ih

/-! ## Layer equations for extraction and the status update -/

theorem extract_requirements (d : Doc) :
    extractUidItems "requirements" d =
      (match docGet d "requirements" with
       | some (.arr rs) => rs
       | _ => []).filterMap fun r => (itemUid r).map fun u => (u, r) := rfl

theorem extract_architecture (d : Doc) :
    extractUidItems "architecture" d =
      (objItems (match docGet d "architecture" with
        | some a => a
        | none => .obj []) "components").filterMap fun c =>
        (itemUid c).map fun u => (u, c) := rfl

theorem extract_implementation (d : Doc) :
    extractUidItems "implementation" d =
      (match docGet d "files" with
       | some (.arr fs) => fs
       | _ => []).flatMap fun f =>
        ((objItems f "classes").flatMap fun cls =>
          ((itemUid cls).map fun u => (u, cls)).toList ++
            ((objItems cls "methods").filterMap fun mtd =>
              (itemUid mtd).map fun u => (u, mtd))) ++
          ((objItems f "functions").filterMap fun fn =>
            (itemUid fn).map fun u => (u, fn)) := rfl

theorem extract_other (cid : String) (d : Doc)
    (h1 : cid ≠ "requirements") (h2 : cid ≠ "architecture")
    (h3 : cid ≠ "implementation") : extractUidItems cid d = [] := by
  unfold extractUidItems
  rw [if_neg h1, if_neg h2, if_neg h3]

theorem setItemStatus_requirements (doc : Doc) (u st : String) :
    setItemStatus "requirements" doc u st =
      docMapField doc "requirements" (mapArr (setIfUid u st)) := rfl

theorem setItemStatus_architecture (doc : Doc) (u st : String) :
    setItemStatus "architecture" doc u st =
      docMapField doc "architecture"
        (fun arch => mapField arch "components" (mapArr (setIfUid u st))) :=
  rfl

theorem setItemStatus_implementation (doc : Doc) (u st : String) :
    setItemStatus "implementation" doc u st =
      docMapField doc "files" (mapArr fun f =>
        mapField
          (mapField f "classes" (mapArr fun cls =>
            mapField (setIfUid u st cls) "methods" (mapArr (setIfUid u st))))
          "functions" (mapArr (setIfUid u st))) := rfl

theorem setItemStatus_other (cid : String) (doc : Doc) (u st : String)
    (h1 : cid ≠ "requirements") (h2 : cid ≠ "architecture")
    (h3 : cid ≠ "implementation") : setItemStatus cid doc u st = doc := by
  unfold setItemStatus
  rw [if_neg h1, if_neg h2, if_neg h3]

/-! ## The extraction shape commutes with the status point-update -/

theorem extract_setItemStatus (cid : String) (doc : Doc) (u st : String) :
    List.Forall₂ (statusSetRel u st) (extractUidItems cid doc)
      (extractUidItems cid (setItemStatus cid doc u st)) := by
  by_cases h1 : cid = "requirements"
  · subst h1
    rw [setItemStatus_requirements, extract_requirements,
      extract_requirements, docGet_docMapField, if_pos rfl]
    cases hdg : docGet doc "requirements" with
    | none => exact List.Forall₂.nil
    | some v =>
        cases v with
        | arr rs =>
            exact forall₂_pairs u st (setIfUid u st) (itemUid_setIfUid u st)
              (status_setIfUid u st) rs
        | null => exact List.Forall₂.nil
        | bool b => exact List.Forall₂.nil
        | num n => exact List.Forall₂.nil
        | str s => exact List.Forall₂.nil
        | obj kvs => exact List.Forall₂.nil
  · by_cases h2 : cid = "architecture"
    · subst h2
      rw [setItemStatus_architecture, extract_architecture,
        extract_architecture, docGet_docMapField, if_pos rfl]
      cases hdg : docGet doc "architecture" with
      | none => exact List.Forall₂.nil
      | some a =>
          show List.Forall₂ (statusSetRel u st)
            ((objItems a "components").filterMap fun c =>
              (itemUid c).map fun w => (w, c))
            ((objItems (mapField a "components" (mapArr (setIfUid u st)))
              "components").filterMap fun c =>
              (itemUid c).map fun w => (w, c))
          rw [objItems_mapField a "components" (setIfUid u st)]
          exact forall₂_pairs u st (setIfUid u st) (itemUid_setIfUid u st)
            (status_setIfUid u st) _
    · by_cases h3 : cid = "implementation"
      · subst h3
        rw [setItemStatus_implementation, extract_implementation,
          extract_implementation, docGet_docMapField, if_pos rfl]
        cases hdg : docGet doc "files" with
        | none => exact List.Forall₂.nil
        | some v =>
            cases v with
            | arr fs =>
                refine forall₂_flatMap _ _ _ _ (fun x => ?_) fs
                have hfns : objItems
                    (mapField
                      (mapField x "classes" (mapArr fun cls =>
                        mapField (setIfUid u st cls) "methods"
                          (mapArr (setIfUid u st))))
                      "functions" (mapArr (setIfUid u st))) "functions" =
                    (objItems x "functions").map (setIfUid u st) := by
                  rw [objItems_mapField,
                    objItems_mapField_ne _ "classes" "functions" _ (by decide)]
                have hcls : objItems
                    (mapField
                      (mapField x "classes" (mapArr fun cls =>
                        mapField (setIfUid u st cls) "methods"
                          (mapArr (setIfUid u st))))
                      "functions" (mapArr (setIfUid u st))) "classes" =
                    (objItems x "classes").map (fun cls =>
                      mapField (setIfUid u st cls) "methods"
                        (mapArr (setIfUid u st))) := by
                  rw [objItems_mapField_ne _ "functions" "classes" _
                    (by decide), objItems_mapField]
                rw [hfns, hcls]
                refine List.rel_append ?_ (forall₂_pairs u st (setIfUid u st)
                  (itemUid_setIfUid u st) (status_setIfUid u st) _)
                refine forall₂_flatMap _ _ _ _ (fun cls => ?_) _
                have hmu : itemUid (mapField (setIfUid u st cls) "methods"
                    (mapArr (setIfUid u st))) = itemUid cls := by
                  rw [itemUid_mapField_ne _ "methods" _ (by decide),
                    itemUid_setIfUid]
                have hms : objItems (mapField (setIfUid u st cls) "methods"
                    (mapArr (setIfUid u st))) "methods" =
                    (objItems cls "methods").map (setIfUid u st) := by
                  rw [objItems_mapField,
                    objItems_setIfUid u st cls "methods" (by decide)]
                rw [hmu, hms]
                refine List.rel_append ?_ (forall₂_pairs u st (setIfUid u st)
                  (itemUid_setIfUid u st) (status_setIfUid u st) _)
                cases hic : itemUid cls with
                | none => exact List.Forall₂.nil
                | some w =>
                    refine List.Forall₂.cons ⟨rfl, ?_⟩ List.Forall₂.nil
                    rw [objGet_mapField_ne _ "methods" "status" _ (by decide)]
                    exact status_setIfUid u st cls w hic
            | null => exact List.Forall₂.nil
            | bool b => exact List.Forall₂.nil
            | num n => exact List.Forall₂.nil
            | str s => exact List.Forall₂.nil
            | obj kvs => exact List.Forall₂.nil
      · rw [setItemStatus_other cid doc u st h1 h2 h3,
          extract_other cid doc h1 h2 h3]
        exact List.Forall₂.nil

/-! ## Every extracted pair carries its own uid -/

theorem mem_pairs_itemUid (rs : List JVal) :
    ∀ p ∈ rs.filterMap fun r => (itemUid r).map fun w => (w, r),
      itemUid p.2 = some p.1 := by
  intro p hp
  obtain ⟨r, _, hr⟩ := List.mem_filterMap.mp hp
  cases hir : itemUid r with
  | none => rw [hir] at hr; exact absurd hr (by simp)
  | some w =>
      rw [hir] at hr
      injection hr with hr
      rw [← hr]
      exact hir

theorem mem_extract_itemUid (cid : String) (d : Doc) :
    ∀ p ∈ extractUidItems cid d, itemUid p.2 = some p.1 := by
  intro p hp
  unfold extractUidItems at hp
  by_cases h1 : cid = "requirements"
  · rw [if_pos h1] at hp
    exact mem_pairs_itemUid _ p hp
  · rw [if_neg h1] at hp
    by_cases h2 : cid = "architecture"
    · rw [if_pos h2] at hp
      exact mem_pairs_itemUid _ p hp
    · rw [if_neg h2] at hp
      by_cases h3 : cid = "implementation"
      · rw [if_pos h3] at hp
        obtain ⟨f, _, hf⟩ := List.mem_flatMap.mp hp
        rcases List.mem_append.mp hf with hcf | hcf
        · obtain ⟨cls, _, hcls⟩ := List.mem_flatMap.mp hcf
          rcases List.mem_append.mp hcls with hh | hh
          · cases hic : itemUid cls with
            | none => rw [hic] at hh; exact absurd hh (by simp)
            | some w =>
                rw [hic] at hh
                have hps : p = (w, cls) := List.mem_singleton.mp hh
                rw [hps]
                exact hic
          · exact mem_pairs_itemUid _ p hh
        · exact mem_pairs_itemUid _ p hcf
      · rw [if_neg h3] at hp
        exact absurd hp (List.not_mem_nil p)

theorem idxGet_append_not_mem (l1 l2 : List IdxRow) (u : String)
    (h : u ∉ l1.map (fun r => r.1)) : idxGet (l1 ++ l2) u = idxGet l2 u := by
  induction l1 with
  | nil => rfl
  | cons r rest ih =>
      obtain ⟨u', c, it⟩ := r
      simp only [List.map_cons, List.mem_cons] at h
      push_neg at h
      rw [List.cons_append, idxGet_cons_ne _ _ _ _ _ (fun he => h.1 he.symm)]
      exact ih h.2

theorem mem_find_by_status (s : Store) (st : String) (it : JVal) :
    it ∈ find_by_status s st ↔
      ∃ r ∈ s.uidIndex, statusIs r.2.2 st = true ∧ r.2.2 = it := by
  unfold find_by_status
  rw [List.mem_filterMap]
  constructor
  · rintro ⟨r, hr, hif⟩
    by_cases hs : statusIs r.2.2 st
    · rw [if_pos hs] at hif
      refine ⟨r, hr, hs, ?_⟩
      injection hif
    · rw [if_neg hs] at hif
      exact absurd hif (by simp)
  · rintro ⟨r, hr, hs, he⟩
    exact ⟨r, hr, by rw [if_pos hs, he]⟩

/-! ## Claim theorems: status query and point update -/

/-- C2: `update_item_status` locates the owning layer of the uid via
the index, mutates that one item inside the owning layer document,
writes the document back (triggering reindex) and returns true; after a
successful update from status `new` to `reviewed`, `find_by_status`
with `reviewed` includes the stored item for that uid and
`find_by_status` with `new` contains no item carrying that uid.  The
hypotheses say the store is well formed (index uids distinct, each
indexed item carries its uid, the indexed item occurs in its owning
document, document uids distinct, other layers do not reuse the
document uids) and that the item currently has status `new`. -/
theorem C2_update_item_status_correct (s : Store) (u cid : String)
    (item : JVal) (doc : Doc)
    (hnd : (s.uidIndex.map (fun r => r.1)).Nodup)
    (hkf : ∀ r ∈ s.uidIndex, itemUid r.2.2 = some r.1)
    (hget : idxGet s.uidIndex u = some (cid, item))
    (hdoc : read_context s cid = some doc)
    (hmem : (u, item) ∈ extractUidItems cid doc)
    (hnde : ((extractUidItems cid doc).map Prod.fst).Nodup)
    (hfresh : ∀ r ∈ s.uidIndex, r.2.1 ≠ cid →
      r.1 ∉ (extractUidItems cid doc).map Prod.fst)
    (hstat : objGet item "status" = some (.str "new")) :
    update_item_status s u "reviewed" =
      (update_context s cid (setItemStatus cid doc u "reviewed") false,
        true) ∧
    (∃ it', find_by_uid (update_context s cid
        (setItemStatus cid doc u "reviewed") false) u = some it' ∧
      it' ∈ find_by_status (update_context s cid
        (setItemStatus cid doc u "reviewed") false) "reviewed" ∧
      objGet it' "status" = some (.str "reviewed")) ∧
    (∀ it ∈ find_by_status (update_context s cid
        (setItemStatus cid doc u "reviewed") false) "new",
      ¬ objGet it "uid" = some (.str u)) := by
  have hrel := extract_setItemStatus cid doc u "reviewed"
  have hkeys : (extractUidItems cid
      (setItemStatus cid doc u "reviewed")).map Prod.fst =
      (extractUidItems cid doc).map Prod.fst := forall₂_keys u "reviewed" hrel
  have hnde' : ((extractUidItems cid
      (setItemStatus cid doc u "reviewed")).map Prod.fst).Nodup := by
    rw [hkeys]; exact hnde
  have hsidx : (update_context s cid
      (setItemStatus cid doc u "reviewed") false).uidIndex =
      (extractUidItems cid (setItemStatus cid doc u "reviewed")).foldl
        (fun acc p => idxPut acc p.1 cid p.2)
        (idxDelete s.uidIndex cid) := rfl
  have hfresh' : ∀ w ∈ (extractUidItems cid
      (setItemStatus cid doc u "reviewed")).map Prod.fst,
      w ∉ (idxDelete s.uidIndex cid).map (fun r => r.1) := by
    intro w hw hw'
    rw [hkeys] at hw
    obtain ⟨r, hr, hre⟩ := List.mem_map.mp hw'
    unfold idxDelete at hr
    have hrr := List.mem_filter.mp hr
    have hcid : r.2.1 ≠ cid := by simpa using hrr.2
    have := hfresh r hrr.1 hcid
    rw [hre] at this
    exact this hw
  have hfold : (update_context s cid
      (setItemStatus cid doc u "reviewed") false).uidIndex =
      idxDelete s.uidIndex cid ++
        (extractUidItems cid (setItemStatus cid doc u "reviewed")).map
          (fun p => (p.1, cid, p.2)) := by
    rw [hsidx]
    exact foldl_idxPut_fresh _ cid _ hnde' hfresh'
  have humem : u ∈ (extractUidItems cid doc).map Prod.fst :=
    List.mem_map.mpr ⟨(u, item), hmem, rfl⟩
  obtain ⟨q, hq, hrq⟩ := forall₂_mem_left hrel (u, item) hmem
  have hq1 : q.1 = u := hrq.1
  have hqs : objGet q.2 "status" = some (.str "reviewed") := by
    have h := hrq.2
    rw [if_pos (rfl : (u, item).1 = u)] at h
    exact h
  have hrowmem : (u, cid, q.2) ∈ (extractUidItems cid
      (setItemStatus cid doc u "reviewed")).map
      (fun p => (p.1, cid, p.2)) := by
    refine List.mem_map.mpr ⟨q, hq, ?_⟩
    rw [hq1]
  have hrowkeys : ((extractUidItems cid
      (setItemStatus cid doc u "reviewed")).map
      (fun p => (p.1, cid, p.2))).map (fun r => r.1) =
      (extractUidItems cid (setItemStatus cid doc u "reviewed")).map
        Prod.fst := by
    rw [List.map_map]
    rfl
  have hnotdel : u ∉ (idxDelete s.uidIndex cid).map (fun r => r.1) := by
    refine hfresh' u ?_
    rw [hkeys]
    exact humem
  have hfind : find_by_uid (update_context s cid
      (setItemStatus cid doc u "reviewed") false) u = some q.2 := by
    unfold find_by_uid
    rw [hfold, idxGet_append_not_mem _ _ u hnotdel,
      mem_idxGet _ u (cid, q.2) (by rw [hrowkeys]; exact hnde') hrowmem]
    rfl
  refine ⟨?_, ⟨q.2, hfind, ?_, hqs⟩, ?_⟩
  · unfold update_item_status
    rw [hget]
    show (match read_context s cid with
      | none => (s, false)
      | some d => (update_context s cid (setItemStatus cid d u "reviewed")
          false, true)) = _
    rw [hdoc]
  · refine (mem_find_by_status _ "reviewed" q.2).mpr
      ⟨(u, cid, q.2), ?_, statusIs_eq_true _ _ hqs, rfl⟩
    rw [hfold]
    exact List.mem_append.mpr (Or.inr hrowmem)
  · intro it hit huid
    obtain ⟨r, hrmem, hrst, hre⟩ := (mem_find_by_status _ "new" it).mp hit
    rw [hfold] at hrmem
    rcases List.mem_append.mp hrmem with hdel | hnew
    · unfold idxDelete at hdel
      have hrr := List.mem_filter.mp hdel
      have hcid : r.2.1 ≠ cid := by simpa using hrr.2
      have hru : objGet r.2.2 "uid" = some (.str r.1) :=
        itemUid_uid_field _ _ (hkf r hrr.1)
      rw [hre, huid] at hru
      injection hru with hru
      injection hru with hru
      rw [hru] at humem
      exact hfresh r hrr.1 hcid humem
    · obtain ⟨p, hp, hpe⟩ := List.mem_map.mp hnew
      have hpu : objGet p.2 "uid" = some (.str p.1) :=
        itemUid_uid_field _ _ (mem_extract_itemUid cid _ p hp)
      have hpit : p.2 = it := by rw [← hre, ← hpe]
      rw [hpit, huid] at hpu
      injection hpu with hpu
      injection hpu with hpu
      obtain ⟨p0, hp0, hrp0⟩ := forall₂_mem_right hrel p hp
      have hp01 : p0.1 = u := by rw [← hrp0.1, hpu]
      have hps : objGet p.2 "status" = some (.str "reviewed") := by
        have h := hrp0.2
        rw [if_pos hp01] at h
        exact h
      have hfalse := statusIs_eq_false p.2 "reviewed" "new" hps (by decide)
      rw [hpit] at hfalse
      rw [hre] at hrst
      rw [hrst] at hfalse
      exact Bool.noConfusion hfalse

/-- Witness for C2: the concrete review store holding one requirement
`req-aaaa1111` with status `new`; updating it to `reviewed` succeeds,
`find_by_status` with `reviewed` includes the updated item, and no item
returned for status `new` carries that uid. -/
theorem C2_update_item_status_correct_witness :
    update_item_status reviewStore "req-aaaa1111" "reviewed" =
      (update_context reviewStore "requirements"
        (setItemStatus "requirements" reviewDoc "req-aaaa1111" "reviewed")
        false, true) ∧
    (∃ it', find_by_uid (update_context reviewStore "requirements"
        (setItemStatus "requirements" reviewDoc "req-aaaa1111" "reviewed")
        false) "req-aaaa1111" = some it' ∧
      it' ∈ find_by_status (update_context reviewStore "requirements"
        (setItemStatus "requirements" reviewDoc "req-aaaa1111" "reviewed")
        false) "reviewed" ∧
      objGet it' "status" = some (.str "reviewed")) ∧
    (∀ it ∈ find_by_status (update_context reviewStore "requirements"
        (setItemStatus "requirements" reviewDoc "req-aaaa1111" "reviewed")
        false) "new",
      ¬ objGet it "uid" = some (.str "req-aaaa1111")) := by
  refine C2_update_item_status_correct reviewStore "req-aaaa1111"
    "requirements" reviewItem reviewDoc (by decide) ?_ rfl rfl ?_ (by decide)
    ?_ rfl
  · intro r hr
    have he : r = ("req-aaaa1111", "requirements", reviewItem) :=
      List.mem_singleton.mp hr
    rw [he]
    rfl
  · rw [show extractUidItems "requirements" reviewDoc =
        [("req-aaaa1111", reviewItem)] from rfl]
    exact List.mem_singleton.mpr rfl
  · intro r hr hne
    have he : r = ("req-aaaa1111", "requirements", reviewItem) :=
      List.mem_singleton.mp hr
    rw [he] at hne
    exact absurd rfl hne

end Pofe
